import Mathlib

/-!
# Verification of the `market` program (anomi-zk-prototype)

Shallow embedding of `programs/market/src/{critbit.rs, order.rs, order_book.rs,
lib.rs}` together with proofs of the frozen claims about it.

Conventions of the embedding:
* `u64`/`u32`/`u128` values become `Nat`; `i64` timestamps become `Int`;
  `Pubkey` becomes `Nat` (an opaque principal identifier).
* Rust methods taking `&mut self` become functions `State → ... → State × result`.
  A Rust `Result` error produced after partial mutation returns the partially
  mutated state together with the error, exactly as the in-memory Rust value
  would be left.
* The CritBit node slab (`Vec<CritBitNode>` with `parent/left/right` indices)
  is represented by the pointer tree it encodes: an inductive binary tree.
  Every internal node of the Rust structure has exactly two non-EMPTY children
  (they are created in pairs and `remove` splices a parent out together with
  the removed leaf), so the encoding is faithful; the bump allocator
  (`free_list` against `nodes.len()`) is kept explicitly since exhaustion is
  observable (`OrderBookFull`), and allocation order within `insert` is kept so
  that a mid-`insert` failure leaves the same observable state as the Rust code
  (free slots consumed, tree unchanged).
-/

namespace Market

/-- Error codes of `error.rs` (the two variants of the local enum in
`critbit.rs`, `OrderBookFull` and `OrderNotFound`, are identified with the
equally named variants here; the programs only ever propagate them). -/
inductive ErrorCode where
  | invalidAmount
  | invalidPrice
  | invalidTokenAccountOwner
  | invalidMint
  | unauthorizedCaller
  | unauthorizedCancellation
  | invalidProgramId
  | orderBookFull
  | orderNotFound
  | invalidSide
  | noMatchingOrders
  | selfTradeNotAllowed
  | postOnlyWouldMatch
  | fillOrKillNotFilled
  | paymentMethodTooLong
  | unauthorizedAction
  | settlementDelayNotExpired
  -- referenced from `lib.rs` (`verify_settlement`) though absent from the
  -- captured `error.rs`
  | invalidProof
  | proofOrderIdMismatch
  deriving Repr, DecidableEq

/-- `u64::MAX`. -/
def U64_MAX : Nat := 2 ^ 64 - 1

/-! ## CritBit tree (`critbit.rs`) -/

/-- `CritBitTree::get_bit`: `if bit_pos >= 64 { false } else { (key >> bit_pos) & 1 == 1 }`. -/
def getBit (key bitPos : Nat) : Bool :=
  if 64 ≤ bitPos then false else (key >>> bitPos) % 2 = 1

/-- Index of the highest set bit of `x` among bits `0..n-1` (`0` when no such
bit is set): the structural computation of `63 - clz` for a 64-bit value. -/
def topBitBelow (x : Nat) : Nat → Nat
  | 0 => 0
  | b + 1 => if (x >>> b) % 2 = 1 then b else topBitBelow x b

/-- `CritBitTree::find_critical_bit`: `64` for identical keys, otherwise
`63 - clz(key1 XOR key2)`, i.e. the index of the highest set bit of the
64-bit xor. -/
def findCriticalBit (key1 key2 : Nat) : Nat :=
  if key1 ^^^ key2 = 0 then 64 else topBitBelow (key1 ^^^ key2) 64

/-- The pointer structure encoded by the `nodes` slab: a leaf stores
`key`/`order_index`, an internal node stores `prefix_len` (the critical bit)
and its two children. -/
inductive CBNode where
  | leaf (key orderIndex : Nat) : CBNode
  | inner (prefixLen : Nat) (l r : CBNode) : CBNode
  deriving Repr, DecidableEq

namespace CBNode

/-- Leaves of a subtree, left to right, as `(key, order_index)` pairs. -/
def leaves : CBNode → List (Nat × Nat)
  | .leaf k o => [(k, o)]
  | .inner _ l r => leaves l ++ leaves r

/-- Keys of the leaves of a subtree, left to right. -/
def keys (n : CBNode) : List Nat := n.leaves.map Prod.fst

/-- Descent loop shared by `CritBitTree::find` / the search phase of
`insert` and `remove`: at an inner node test `get_bit(key, prefix_len)` and go
right on `1`, left on `0`; at a leaf compare keys. -/
def findGo (key : Nat) : CBNode → Option Nat
  | .leaf k o => if k = key then some o else none
  | .inner pl l r => if getBit key pl then findGo key r else findGo key l

/-- `CritBitTree::find_min_leaf`: recursively take the minimum-key leaf of both
subtrees.  (In the Rust code the `EMPTY`-child branches are dead: every inner
node has two children.) -/
def minLeaf : CBNode → Nat × Nat
  | .leaf k o => (k, o)
  | .inner _ l r =>
    let lm := minLeaf l
    let rm := minLeaf r
    if lm.1 < rm.1 then lm else rm

/-- `CritBitTree::find_max_leaf`: recursively take the maximum-key leaf of both
subtrees. -/
def maxLeaf : CBNode → Nat × Nat
  | .leaf k o => (k, o)
  | .inner _ l r =>
    let lm := maxLeaf l
    let rm := maxLeaf r
    if rm.1 < lm.1 then lm else rm

end CBNode

/-- Result of the insertion descent: the new subtree, the new `free_list`
value, whether a new leaf was added (`leaf_count` increment), and an error if
allocation failed.  On error the subtree is returned unchanged but `free_list`
may have been advanced (the Rust `alloc_node` for the inner node succeeds and
bumps `free_list` before the leaf allocation fails). -/
structure InsRes where
  node : CBNode
  freeList : Nat
  added : Bool
  err : Option ErrorCode
  deriving Repr, DecidableEq

/-- The descent/splice loop of `CritBitTree::insert` on a non-empty tree.
At a leaf with the same key the payload is overwritten; at a leaf with a
different key a new inner node (at `find_critical_bit`) and a new leaf are
allocated, the new leaf going right iff `get_bit(key, crit_bit)`; at an inner
node descend by `get_bit(key, prefix_len)`. -/
def insertGo (key oi cap : Nat) : CBNode → Nat → InsRes
  | .leaf k o, fl =>
    if k = key then ⟨.leaf k oi, fl, false, none⟩
    else
      -- two allocations: the inner node then the new leaf
      if fl < cap then
        if fl + 1 < cap then
          let cb := findCriticalBit key k
          if getBit key cb then
            ⟨.inner cb (.leaf k o) (.leaf key oi), fl + 2, true, none⟩
          else
            ⟨.inner cb (.leaf key oi) (.leaf k o), fl + 2, true, none⟩
        else ⟨.leaf k o, fl + 1, false, some .orderBookFull⟩
      else ⟨.leaf k o, fl, false, some .orderBookFull⟩
  | .inner pl l r, fl =>
    if getBit key pl then
      let res := insertGo key oi cap r fl
      ⟨.inner pl l res.node, res.freeList, res.added, res.err⟩
    else
      let res := insertGo key oi cap l fl
      ⟨.inner pl res.node r, res.freeList, res.added, res.err⟩

/-- `CritBitTree`: the root pointer structure plus the bump allocator state.
`capacity` is `nodes.len()` (fixed at construction); `freeList` is the bump
counter `free_list`; `leafCount` mirrors `leaf_count`. -/
structure CritBitTree where
  root : Option CBNode
  leafCount : Nat
  freeList : Nat
  capacity : Nat
  deriving Repr, DecidableEq

namespace CritBitTree

/-- `CritBitTree::new(capacity)`. -/
def new (capacity : Nat) : CritBitTree := ⟨none, 0, 0, capacity⟩

/-- `CritBitTree::insert`.  Empty-tree case allocates one leaf and sets
`leaf_count = 1`; otherwise the descent loop `insertGo` runs. -/
def insert (t : CritBitTree) (key oi : Nat) : CritBitTree × Option ErrorCode :=
  match t.root with
  | none =>
    if t.freeList < t.capacity then
      ({ t with root := some (.leaf key oi), leafCount := 1,
                freeList := t.freeList + 1 }, none)
    else (t, some .orderBookFull)
  | some n =>
    let res := insertGo key oi t.capacity n t.freeList
    ({ t with root := some res.node, freeList := res.freeList,
              leafCount := if res.added then t.leafCount + 1 else t.leafCount },
     res.err)

/-- The descent/splice loop of `CritBitTree::remove` on a non-empty tree:
on success returns the remaining subtree (`none` when the removed leaf was the
whole subtree — its sibling is promoted one level up by the caller) and the
`order_index` of the removed leaf. -/
def removeGo (key : Nat) : CBNode → Except ErrorCode (Option CBNode × Nat)
  | .leaf k o => if k = key then .ok (none, o) else .error .orderNotFound
  | .inner pl l r =>
    if getBit key pl then
      match removeGo key r with
      | .error e => .error e
      | .ok (none, o) => .ok (some l, o)
      | .ok (some r', o) => .ok (some (.inner pl l r'), o)
    else
      match removeGo key l with
      | .error e => .error e
      | .ok (none, o) => .ok (some r, o)
      | .ok (some l', o) => .ok (some (.inner pl l' r), o)

/-- `CritBitTree::remove`.  Node slots are never returned to the free list. -/
def remove (t : CritBitTree) (key : Nat) : CritBitTree × Except ErrorCode Nat :=
  match t.root with
  | none => (t, .error .orderNotFound)
  | some n =>
    match removeGo key n with
    | .error e => (t, .error e)
    | .ok (root', oi) =>
      ({ t with root := root', leafCount := t.leafCount - 1 }, .ok oi)

/-- `CritBitTree::find`. -/
def find (t : CritBitTree) (key : Nat) : Option Nat :=
  match t.root with
  | none => none
  | some n => n.findGo key

/-- `CritBitTree::min`. -/
def minKey (t : CritBitTree) : Option (Nat × Nat) := t.root.map CBNode.minLeaf

/-- `CritBitTree::max`. -/
def maxKey (t : CritBitTree) : Option (Nat × Nat) := t.root.map CBNode.maxLeaf

/-- All `(key, order_index)` leaves of the tree. -/
def leavesList (t : CritBitTree) : List (Nat × Nat) :=
  match t.root with
  | none => []
  | some n => n.leaves

end CritBitTree

/-! ## Orders and price-level queues (`order.rs`) -/

inductive OrderType where
  | limit
  | market
  | postOnly
  | immediateOrCancel
  | fillOrKill
  deriving Repr, DecidableEq

inductive Side where
  | bid
  | ask
  deriving Repr, DecidableEq

/-- `Side::opposite`. -/
def Side.opposite : Side → Side
  | .bid => .ask
  | .ask => .bid

inductive PaymentStatus where
  | pending
  | paymentMarked
  | settlementDelay
  | verified
  | disputed
  deriving Repr, DecidableEq

/-- `Order` (`order.rs`).  `payment_method` is the fixed 32-byte array. -/
structure Order where
  order_id : Nat
  owner : Nat
  quantity : Nat
  original_quantity : Nat
  price : Nat
  timestamp : Int
  order_type : OrderType
  side : Side
  client_order_id : Nat
  payment_method : List Nat
  payment_status : PaymentStatus
  payment_marked_timestamp : Int
  settlement_timestamp : Int
  deriving Repr, DecidableEq

namespace Order

/-- `Order::new`: the payment-method string is truncated/zero-padded into the
32-byte array; lifecycle fields start at `Pending` / `0` / `0`. -/
def new (order_id owner quantity price : Nat) (timestamp : Int)
    (order_type : OrderType) (side : Side) (client_order_id : Nat)
    (payment_method : List Nat) : Order :=
  { order_id, owner, quantity, original_quantity := quantity, price, timestamp,
    order_type, side, client_order_id,
    payment_method :=
      payment_method.take 32 ++
        List.replicate (32 - min payment_method.length 32) 0,
    payment_status := .pending,
    payment_marked_timestamp := 0,
    settlement_timestamp := 0 }

/-- `Order::is_filled`. -/
def isFilled (o : Order) : Bool := o.quantity = 0

/-- `Order::fill`: `quantity = quantity.saturating_sub(fill_quantity)`
(saturating subtraction is `Nat` subtraction). -/
def fill (o : Order) (fillQuantity : Nat) : Order :=
  { o with quantity := o.quantity - fillQuantity }

end Order

/-- `OrderQueue` (`order.rs`): FIFO list of orders at one price plus the
cached `total_quantity`. -/
structure OrderQueue where
  orders : List Order
  total_quantity : Nat
  deriving Repr, DecidableEq

namespace OrderQueue

/-- `OrderQueue::new`. -/
def new : OrderQueue := ⟨[], 0⟩

/-- `OrderQueue::push`: appends and adds the pushed order's quantity. -/
def push (q : OrderQueue) (o : Order) : OrderQueue :=
  ⟨q.orders ++ [o], q.total_quantity + o.quantity⟩

/-- `position`-then-`Vec::remove` of `OrderQueue::remove`: drop the first
order carrying the id, keeping the rest in order. -/
def removeById (order_id : Nat) : List Order → Option (Order × List Order)
  | [] => none
  | o :: rest =>
    if o.order_id = order_id then some (o, rest)
    else (removeById order_id rest).map fun p => (p.1, o :: p.2)

/-- `OrderQueue::remove`: removes the first order with the given id and
subtracts its (remaining) quantity; `None` and no mutation when absent.
(`total_quantity -=` underflow cannot occur on states reachable by the
program; `Nat` subtraction is used.) -/
def remove (q : OrderQueue) (order_id : Nat) : Option Order × OrderQueue :=
  match removeById order_id q.orders with
  | none => (none, q)
  | some (o, rest) => (some o, ⟨rest, q.total_quantity - o.quantity⟩)

/-- `OrderQueue::peek`. -/
def peek (q : OrderQueue) : Option Order := q.orders.head?

/-- `OrderQueue::pop_if_filled`: removes the head when its quantity is zero
(so the subtracted quantity is the head's, which is then `0`). -/
def popIfFilled (q : OrderQueue) : Option Order × OrderQueue :=
  match q.orders.head? with
  | none => (none, q)
  | some o =>
    if o.isFilled then
      (some o, ⟨q.orders.tail, q.total_quantity - o.quantity⟩)
    else (none, q)

/-- `OrderQueue::is_empty`. -/
def isEmpty (q : OrderQueue) : Bool := q.orders.isEmpty

/-- Sum of the `quantity` fields of the queued orders (specification side of
claims about `total_quantity`). -/
def sumQuantities (q : OrderQueue) : Nat := (q.orders.map Order.quantity).sum

end OrderQueue

/-! ## Order book (`order_book.rs`) -/

/-- A fill record `(price, fill_quantity, maker_order_id)`. -/
abbrev Fill := Nat × Nat × Nat

/-- Total quantity of a fill list (`fills.iter().map(|(_, qty, _)| qty).sum()`). -/
def sumFillQty (fills : List Fill) : Nat := (fills.map fun f => f.2.1).sum

/-- `OrderBook` (`order_book.rs`).  `order_queues` is the pre-allocated slab
(`MAX_PRICE_LEVELS` entries). -/
structure OrderBook where
  market : Nat
  base_mint : Nat
  quote_mint : Nat
  bids : CritBitTree
  asks : CritBitTree
  order_queues : List OrderQueue
  next_queue_index : Nat
  total_orders : Nat
  best_bid : Nat
  best_ask : Nat
  deriving Repr, DecidableEq

namespace OrderBook

/-- `OrderBook::MAX_PRICE_LEVELS`. -/
def MAX_PRICE_LEVELS : Nat := 50

/-- `OrderBook::new`. -/
def new (market base_mint quote_mint : Nat) : OrderBook :=
  { market, base_mint, quote_mint,
    bids := CritBitTree.new MAX_PRICE_LEVELS,
    asks := CritBitTree.new MAX_PRICE_LEVELS,
    order_queues := List.replicate MAX_PRICE_LEVELS OrderQueue.new,
    next_queue_index := 0,
    total_orders := 0,
    best_bid := 0,
    best_ask := U64_MAX }

/-- Slab read `order_queues[qi]`.  (Rust indexing panics out of range; on the
states the program reaches the index is always in range, and all claims are
settled on such states.) -/
def getQ (b : OrderBook) (qi : Nat) : OrderQueue :=
  b.order_queues.getD qi OrderQueue.new

/-- Slab write `order_queues[qi] = q` (no-op out of range, see `getQ`). -/
def setQ (b : OrderBook) (qi : Nat) (q : OrderQueue) : OrderBook :=
  { b with order_queues := b.order_queues.set qi q }

/-- `Σ queues[i].orders.len()` — the recomputation done at the end of
`OrderBook::match_order`. -/
def sumOrdersLen (b : OrderBook) : Nat :=
  (b.order_queues.map fun q => q.orders.length).sum

/-- `OrderBook::update_best_prices`: `best_bid = bids.max().unwrap_or(0)`,
`best_ask = asks.min().unwrap_or(u64::MAX)`. -/
def updateBestPrices (b : OrderBook) : OrderBook :=
  { b with best_bid := (b.bids.maxKey.map Prod.fst).getD 0,
           best_ask := (b.asks.minKey.map Prod.fst).getD U64_MAX }

/-- `OrderBook::insert_order`.  Mutation order follows the source: in the
new-price-level branch the capacity check precedes all mutation, then the
queue index is claimed, the order pushed, and finally the tree insert runs —
whose failure is propagated after those mutations (and before `total_orders`
and the cache refresh). -/
def insertOrder (b : OrderBook) (o : Order) : OrderBook × Option ErrorCode :=
  let tree := match o.side with | .bid => b.bids | .ask => b.asks
  let withTree := fun (b' : OrderBook) (t : CritBitTree) =>
    match o.side with
    | .bid => { b' with bids := t }
    | .ask => { b' with asks := t }
  match tree.find o.price with
  | some qi =>
    let b1 := b.setQ qi ((b.getQ qi).push o)
    let b2 := { b1 with total_orders := b1.total_orders + 1 }
    (b2.updateBestPrices, none)
  | none =>
    if b.next_queue_index < MAX_PRICE_LEVELS then
      let qi := b.next_queue_index
      let b1 := { b.setQ qi ((b.getQ qi).push o) with next_queue_index := qi + 1 }
      let (t', err) := tree.insert o.price qi
      let b2 := withTree b1 t'
      match err with
      | some e => (b2, some e)
      | none =>
        let b3 := { b2 with total_orders := b2.total_orders + 1 }
        (b3.updateBestPrices, none)
    else (b, some .orderBookFull)

/-- `OrderBook::remove_order`.  (`total_orders -= 1` is `Nat` subtraction; on
program-reachable states the book is non-empty when removal succeeds.) -/
def removeOrder (b : OrderBook) (order_id : Nat) (side : Side) (price : Nat) :
    OrderBook × Except ErrorCode Order :=
  let tree := match side with | .bid => b.bids | .ask => b.asks
  let withTree := fun (b' : OrderBook) (t : CritBitTree) =>
    match side with
    | .bid => { b' with bids := t }
    | .ask => { b' with asks := t }
  match tree.find price with
  | none => (b, .error .orderNotFound)
  | some qi =>
    match (b.getQ qi).remove order_id with
    | (none, _) => (b, .error .orderNotFound)
    | (some o, q') =>
      let b1 := b.setQ qi q'
      let step2 := fun (b2 : OrderBook) =>
        let b3 := { b2 with total_orders := b2.total_orders - 1 }
        (b3.updateBestPrices, Except.ok o)
      if q'.isEmpty then
        let (t', res) := tree.remove price
        let b2 := withTree b1 t'
        match res with
        | .error e => (b2, .error e)
        | .ok _ => step2 b2
      else step2 b1

/-- `OrderBook::get_best_order`: best price level of the side (max for bids,
min for asks), then the head of its queue. -/
def getBestOrder (b : OrderBook) (side : Side) : Option Order :=
  let best := match side with
    | .bid => b.bids.maxKey
    | .ask => b.asks.minKey
  match best with
  | none => none
  | some (_, qi) => (b.getQ qi).peek

/-- `OrderBook::would_self_trade`. -/
def wouldSelfTrade (b : OrderBook) (side : Side) (owner : Nat) : Bool :=
  match b.getBestOrder side.opposite with
  | some o => o.owner = owner
  | none => false

/-- One pass of the `while remaining_quantity > 0` loop of
`OrderBook::match_order`, written with explicit fuel.  Each Rust iteration
strictly decreases `remaining + Σ queues[i].orders.len()` (a fill reduces
`remaining`, a zero fill happens only for an already-filled head, which is
popped), so the fuel chosen by `matchOrder` is never exhausted and the `0`
case below is unreachable there. -/
def matchLoop (side : Side) (limitPrice taker : Nat) :
    Nat → OrderBook → Nat → List Fill → OrderBook × List Fill × Option ErrorCode
  | 0, b, _, fills => (b, fills, none)
  | fuel + 1, b, remaining, fills =>
    if remaining = 0 then (b, fills, none)
    else
      -- best price of the opposing side
      let best := match side with
        | .bid => b.asks.minKey
        | .ask => b.bids.maxKey
      match best with
      | none => (b, fills, none)
      | some (price, qi) =>
        let priceAcceptable : Bool := match side with
          | .bid => price ≤ limitPrice
          | .ask => limitPrice ≤ price
        if priceAcceptable then
          let q := b.getQ qi
          match q.orders.head? with
          | none => (b, fills, none)   -- queue unexpectedly empty
          | some maker =>
            if maker.owner = taker then (b, fills, none)  -- self-trade: abort
            else
              let fillQuantity := min remaining maker.quantity
              let fills' := fills ++ [(price, fillQuantity, maker.order_id)]
              let maker' := maker.fill fillQuantity
              -- peek_mut writes the head back in place
              let q1 : OrderQueue := ⟨maker' :: q.orders.tail, q.total_quantity⟩
              let b1 := b.setQ qi q1
              let remaining' := remaining - fillQuantity
              if maker'.isFilled then
                let q2 := (q1.popIfFilled).2
                let b2 := b1.setQ qi q2
                if q2.isEmpty then
                  let tree := match side with
                    | .bid => b2.asks
                    | .ask => b2.bids
                  let (t', res) := tree.remove price
                  let b3 := match side with
                    | .bid => { b2 with asks := t' }
                    | .ask => { b2 with bids := t' }
                  match res with
                  | .error e => (b3, fills', some e)
                  | .ok _ => matchLoop side limitPrice taker fuel b3 remaining' fills'
                else matchLoop side limitPrice taker fuel b2 remaining' fills'
              else matchLoop side limitPrice taker fuel b1 remaining' fills'
        else (b, fills, none)

/-- `OrderBook::match_order`.  After the loop, `total_orders` is recomputed
from the slab and the best-price caches refreshed; an error inside the loop
(`tree.remove(price)?`) is propagated immediately, skipping both. -/
def matchOrder (b : OrderBook) (side : Side) (maxQuantity limitPrice taker : Nat) :
    OrderBook × List Fill × Option ErrorCode :=
  match matchLoop side limitPrice taker (maxQuantity + b.sumOrdersLen + 1) b maxQuantity [] with
  | (b1, fills, some e) => (b1, fills, some e)
  | (b1, fills, none) =>
    let b2 := { b1 with total_orders := b1.sumOrdersLen }
    (b2.updateBestPrices, fills, none)

end OrderBook

/-! ## Program instructions (`lib.rs`)

Each instruction runs in a transaction: when the handler returns an error the
runtime discards every account mutation, so the persisted order book is the
pre-call one (spec §7: "any error rolls back all mutations"; Anchor/Solana
semantics of a failing instruction).  The step functions below return the
*persisted* book next to the handler's result. -/

/-- Scan of one queue's `orders` for an `order_id` (the inner `for` of
`mark_payment_made` / `verify_settlement`): first hit, with its position. -/
def findInOrders (oid : Nat) : List Order → Nat → Option (Nat × Order)
  | [], _ => none
  | o :: rest, j =>
    if o.order_id = oid then some (j, o) else findInOrders oid rest (j + 1)

/-- Scan of the whole slab (the outer `for`): first queue containing the
order id, with queue index, position and the order found. -/
def findOrderLoc (oid : Nat) : List OrderQueue → Nat → Option (Nat × Nat × Order)
  | [], _ => none
  | q :: rest, i =>
    match findInOrders oid q.orders 0 with
    | some (j, o) => some (i, j, o)
    | none => findOrderLoc oid rest (i + 1)

/-- Replace the order at queue `qi`, position `j`. -/
def OrderBook.setOrderAt (b : OrderBook) (qi j : Nat) (o : Order) : OrderBook :=
  let q := b.getQ qi
  b.setQ qi { q with orders := q.orders.set j o }

/-- `market::mark_payment_made`: locate the order; require the caller to be
its owner; set `payment_status = PaymentMarked`,
`payment_marked_timestamp = now`, `settlement_timestamp = now + 10`. -/
def markPaymentMade (b : OrderBook) (order_id buyer : Nat) (now : Int) :
    OrderBook × Except ErrorCode Unit :=
  match findOrderLoc order_id b.order_queues 0 with
  | none => (b, .error .orderNotFound)
  | some (qi, j, o) =>
    if o.owner = buyer then
      (b.setOrderAt qi j
        { o with payment_status := .paymentMarked,
                 payment_marked_timestamp := now,
                 settlement_timestamp := now + 10 }, .ok ())
    else (b, .error .unauthorizedAction)

/-- `market::verify_settlement`.  The proof points are byte vectors (only
their lengths are inspected); each public signal is the result of
`parse::<u64>()` on the decimal string, `none` when parsing fails.  The check
order follows the source: settlement delay, signal count, parse of signals 16
and 17, order-id match, proof shape; then the status is set to `Verified`
(the escrow CPI transfer is outside the embedded state). -/
def verifySettlement (b : OrderBook) (order_id : Nat)
    (proof_a proof_b proof_c : List Nat) (public_signals : List (Option Nat))
    (now : Int) : OrderBook × Except ErrorCode Unit :=
  match findOrderLoc order_id b.order_queues 0 with
  | none => (b, .error .orderNotFound)
  | some (qi, j, o) =>
    if o.settlement_timestamp ≤ now then
      if 18 ≤ public_signals.length then
        match public_signals.getD 16 none with
        | none => (b, .error .invalidProof)
        | some lo =>
          match public_signals.getD 17 none with
          | none => (b, .error .invalidProof)
          | some hi =>
            if (hi <<< 64) ||| lo = order_id then
              if proof_a.length = 64 ∧ proof_b.length = 128 ∧ proof_c.length = 64 then
                (b.setOrderAt qi j { o with payment_status := .verified }, .ok ())
              else (b, .error .invalidProof)
            else (b, .error .proofOrderIdMismatch)
      else (b, .error .invalidProof)
    else (b, .error .settlementDelayNotExpired)

/-- `market::match_order`: input validation, the pre-flight self-trade check,
the book-level match, then the order-type policy.  An error return aborts the
transaction, so the book component of the result is the pre-call book in every
error case (see the section comment). -/
def stepMatchOrder (b : OrderBook) (side : Side)
    (quantity limit_price : Nat) (order_type : OrderType) (taker : Nat) :
    OrderBook × Except ErrorCode (List Fill) :=
  if quantity = 0 then (b, .error .invalidAmount)
  else if limit_price = 0 then (b, .error .invalidPrice)
  else if b.wouldSelfTrade side taker then (b, .error .selfTradeNotAllowed)
  else
    match b.matchOrder side quantity limit_price taker with
    | (_, _, some e) => (b, .error e)
    | (b1, fills, none) =>
      match order_type with
      | .postOnly =>
        if fills.isEmpty then (b1, .ok fills) else (b, .error .postOnlyWouldMatch)
      | .fillOrKill =>
        if sumFillQty fills < quantity then (b, .error .fillOrKillNotFilled)
        else (b1, .ok fills)
      | _ => (b1, .ok fills)

instance {ε α : Type} [DecidableEq ε] [DecidableEq α] : DecidableEq (Except ε α) :=
  fun x y =>
    match x, y with
    | .ok a, .ok b =>
      if h : a = b then .isTrue (by rw [h])
      else .isFalse (by intro hc; cases hc; exact h rfl)
    | .error a, .error b =>
      if h : a = b then .isTrue (by rw [h])
      else .isFalse (by intro hc; cases hc; exact h rfl)
    | .ok _, .error _ => .isFalse (by intro hc; cases hc)
    | .error _, .ok _ => .isFalse (by intro hc; cases hc)

/-! ## Basic facts about the CritBit scan primitives -/

theorem CBNode.leaves_ne_nil (n : CBNode) : n.leaves ≠ [] := by
  induction n with
  | leaf k o => simp [leaves]
  | inner pl l r ihl ihr => simp [leaves, ihl]

theorem CBNode.minLeaf_mem (n : CBNode) : n.minLeaf ∈ n.leaves := by
  induction n with
  | leaf k o => simp [leaves, minLeaf]
  | inner pl l r ihl ihr =>
    simp only [leaves, minLeaf, List.mem_append]
    split
    · exact Or.inl ihl
    · exact Or.inr ihr

theorem CBNode.minLeaf_le (n : CBNode) : ∀ p ∈ n.leaves, n.minLeaf.1 ≤ p.1 := by
  induction n with
  | leaf k o => intro p hp; simp [leaves] at hp; simp [hp, minLeaf]
  | inner pl l r ihl ihr =>
    intro p hp
    simp only [leaves, List.mem_append] at hp
    simp only [minLeaf]
    rcases hp with hp | hp
    · split
      · exact ihl p hp
      · exact le_trans (le_of_not_lt (by assumption)) (ihl p hp)
    · split
      · exact le_trans (le_of_lt (by assumption)) (ihr p hp)
      · exact ihr p hp

theorem CBNode.maxLeaf_mem (n : CBNode) : n.maxLeaf ∈ n.leaves := by
  induction n with
  | leaf k o => simp [leaves, maxLeaf]
  | inner pl l r ihl ihr =>
    simp only [leaves, maxLeaf, List.mem_append]
    split
    · exact Or.inl ihl
    · exact Or.inr ihr

theorem CBNode.le_maxLeaf (n : CBNode) : ∀ p ∈ n.leaves, p.1 ≤ n.maxLeaf.1 := by
  induction n with
  | leaf k o => intro p hp; simp [leaves] at hp; simp [hp, maxLeaf]
  | inner pl l r ihl ihr =>
    intro p hp
    simp only [leaves, List.mem_append] at hp
    simp only [maxLeaf]
    rcases hp with hp | hp
    · split
      · exact ihl p hp
      · exact le_trans (ihl p hp) (le_of_not_lt (by assumption))
    · split
      · exact le_trans (ihr p hp) (le_of_lt (by assumption))
      · exact ihr p hp

theorem CBNode.findGo_mem {n : CBNode} {k v : Nat} (h : n.findGo k = some v) :
    (k, v) ∈ n.leaves := by
  induction n with
  | leaf k0 o =>
    simp only [findGo] at h
    split at h
    · simp_all [leaves]
    · exact absurd h (by simp)
  | inner pl l r ihl ihr =>
    simp only [findGo] at h
    simp only [leaves, List.mem_append]
    split at h
    · exact Or.inr (ihr h)
    · exact Or.inl (ihl h)

/-! ## C6: best-price cache invariant -/

/-- `best_bid` is the maximum key of the bids tree (`0` when it is empty) and
`best_ask` the minimum key of the asks tree (`u64::MAX` when it is empty),
stated as: the sentinel on an empty side, an upper/lower bound on all keys,
and membership among the keys on a non-empty side. -/
def CachesOk (b : OrderBook) : Prop :=
  (b.bids.leavesList = [] → b.best_bid = 0) ∧
  (∀ p ∈ b.bids.leavesList, p.1 ≤ b.best_bid) ∧
  (b.bids.leavesList ≠ [] → b.best_bid ∈ b.bids.leavesList.map Prod.fst) ∧
  (b.asks.leavesList = [] → b.best_ask = U64_MAX) ∧
  (∀ p ∈ b.asks.leavesList, b.best_ask ≤ p.1) ∧
  (b.asks.leavesList ≠ [] → b.best_ask ∈ b.asks.leavesList.map Prod.fst)

theorem cachesOk_updateBestPrices (b : OrderBook) : CachesOk b.updateBestPrices := by
  refine ⟨?_, ?_, ?_, ?_, ?_, ?_⟩ <;>
    simp only [OrderBook.updateBestPrices, CritBitTree.leavesList,
      CritBitTree.maxKey, CritBitTree.minKey]
  · cases hb : b.bids.root with
    | none => simp
    | some nb => intro h; exact absurd h nb.leaves_ne_nil
  · cases hb : b.bids.root with
    | none => simp
    | some nb => simpa using nb.le_maxLeaf
  · cases hb : b.bids.root with
    | none => simp
    | some nb => intro _; simpa using List.mem_map_of_mem Prod.fst nb.maxLeaf_mem
  · cases ha : b.asks.root with
    | none => simp
    | some na => intro h; exact absurd h na.leaves_ne_nil
  · cases ha : b.asks.root with
    | none => simp
    | some na => simpa using na.minLeaf_le
  · cases ha : b.asks.root with
    | none => simp
    | some na => intro _; simpa using List.mem_map_of_mem Prod.fst na.minLeaf_mem

/-- C6.  Best-price cache invariant: after every successful public book
operation — `insert_order`, `remove_order`, `match_order` — on any book
state, `best_bid` is the maximum key of the bids tree (`0` if the tree is
empty) and `best_ask` is the minimum key of the asks tree (`u64::MAX` if the
tree is empty); each operation ends in `update_best_prices`. -/
theorem c6_best_price_cache (b : OrderBook) :
    (∀ o b', b.insertOrder o = (b', none) → CachesOk b') ∧
    (∀ oid side price b' ord,
      b.removeOrder oid side price = (b', .ok ord) → CachesOk b') ∧
    (∀ side qty limit taker b' fills,
      b.matchOrder side qty limit taker = (b', fills, none) → CachesOk b') := by
  refine ⟨?_, ?_, ?_⟩
  · intro o b' h
    unfold OrderBook.insertOrder at h
    dsimp only at h
    split at h
    · injection h with h1 _; subst h1; exact cachesOk_updateBestPrices _
    · split at h
      · split at h
        · exact absurd (congrArg Prod.snd h) (by simp)
        · injection h with h1 _; subst h1; exact cachesOk_updateBestPrices _
      · exact absurd (congrArg Prod.snd h) (by simp)
  · intro oid side price b' ord h
    unfold OrderBook.removeOrder at h
    dsimp only at h
    split at h
    · exact absurd (congrArg Prod.snd h) (by simp)
    · split at h
      · exact absurd (congrArg Prod.snd h) (by simp)
      · split at h
        · split at h
          · exact absurd (congrArg Prod.snd h) (by simp)
          · injection h with h1 _; subst h1; exact cachesOk_updateBestPrices _
        · injection h with h1 _; subst h1; exact cachesOk_updateBestPrices _
  · intro side qty limit taker b' fills h
    unfold OrderBook.matchOrder at h
    dsimp only at h
    split at h
    · exact absurd (congrArg (fun p => p.2.2) h) (by simp)
    · injection h with h1 _; subst h1; exact cachesOk_updateBestPrices _

/-- Witness for C6 at concrete inputs: one successful insert, remove and
match, each from a small concrete book. -/
theorem c6_best_price_cache_witness :
    CachesOk ((OrderBook.new 1 2 2).insertOrder
        (Order.new 11 7 100 50 1000 .limit .bid 1 [])).1 ∧
    CachesOk (((OrderBook.new 1 2 2).insertOrder
        (Order.new 11 7 100 50 1000 .limit .bid 1 [])).1.removeOrder 11 .bid 50).1 ∧
    CachesOk (((OrderBook.new 1 2 2).insertOrder
        (Order.new 11 7 100 50 1000 .limit .ask 1 [])).1.matchOrder .bid 40 60 9).1 :=
  ⟨(c6_best_price_cache (OrderBook.new 1 2 2)).1
      (Order.new 11 7 100 50 1000 .limit .bid 1 [])
      ((OrderBook.new 1 2 2).insertOrder
        (Order.new 11 7 100 50 1000 .limit .bid 1 [])).1 (by decide),
   (c6_best_price_cache ((OrderBook.new 1 2 2).insertOrder
        (Order.new 11 7 100 50 1000 .limit .bid 1 [])).1).2.1 11 .bid 50
      (((OrderBook.new 1 2 2).insertOrder
        (Order.new 11 7 100 50 1000 .limit .bid 1 [])).1.removeOrder 11 .bid 50).1
      (Order.new 11 7 100 50 1000 .limit .bid 1 []) (by rfl),
   (c6_best_price_cache ((OrderBook.new 1 2 2).insertOrder
        (Order.new 11 7 100 50 1000 .limit .ask 1 [])).1).2.2 .bid 40 60 9
      (((OrderBook.new 1 2 2).insertOrder
        (Order.new 11 7 100 50 1000 .limit .ask 1 [])).1.matchOrder .bid 40 60 9).1
      [(50, 40, 11)] (by decide)⟩

/-! ## C4: price-priority scenario -/

/-- The book of scenario C4: three asks inserted into a fresh book —
(price 110, qty 5, owner A = 1, id 101), (price 105, qty 3, owner B = 2,
id 102), (price 115, qty 10, owner C = 3, id 103). -/
def c4Book : OrderBook :=
  ((((OrderBook.new 1 2 2).insertOrder
      (Order.new 101 1 5 110 1000 .limit .ask 1 [])).1.insertOrder
      (Order.new 102 2 3 105 1001 .limit .ask 2 [])).1.insertOrder
      (Order.new 103 3 10 115 1002 .limit .ask 3 [])).1

/-- The match of scenario C4: Bid(qty 6, limit 120, owner D = 4). -/
def c4Res : OrderBook × List Fill × Option ErrorCode :=
  c4Book.matchOrder .bid 6 120 4

/-- C4.  From an empty book, after inserting Asks (110, qty 5, owner A = 1),
(105, qty 3, owner B = 2), (115, qty 10, owner C = 3), matching
Bid(qty 6, limit 120, owner D = 4) yields exactly the fills
`[(105, 3, idB), (110, 3, idA)]` in that order, and afterwards the asks side
holds exactly price 110 with quantity 2 and price 115 with quantity 10. -/
theorem c4_price_priority_scenario :
    c4Res.2.1 = [(105, 3, 102), (110, 3, 101)] ∧
    c4Res.2.2 = none ∧
    c4Res.1.asks.leavesList.map Prod.fst = [115, 110] ∧
    c4Res.1.asks.find 110 = some 0 ∧
    (c4Res.1.getQ 0).orders.map (fun o => (o.order_id, o.quantity))
      = [(101, 2)] ∧
    c4Res.1.asks.find 115 = some 2 ∧
    (c4Res.1.getQ 2).orders.map (fun o => (o.order_id, o.quantity))
      = [(103, 10)] := by
  decide

/-! ## C2: verify_settlement does not require PaymentMarked (code bug)

`verify_settlement` checks only `clock.unix_timestamp >= order.settlement_timestamp`;
it never checks `payment_status`.  A freshly placed order has
`payment_status = Pending` and `settlement_timestamp = 0`, so the delay check
passes vacuously at any non-negative clock and the order can be verified
(releasing escrow) although payment was never marked — contradicting the
specified requirement `payment_status == PaymentMarked`. -/

/-- The book of the C2 failing input: one fresh (hence never
payment-marked) resting order, id 401, owner 9. -/
def c2Book : OrderBook :=
  ((OrderBook.new 1 2 2).insertOrder
    (Order.new 401 9 5 100 1000 .limit .ask 1 [])).1

/-- Eighteen well-formed public signals whose indices 16 and 17 encode
order id 401. -/
def c2Signals : List (Option Nat) :=
  List.replicate 16 (some 0) ++ [some 401, some 0]

/-- `verify_settlement` on the never-marked order at clock 1000 with a
well-shaped proof. -/
def c2Res : OrderBook × Except ErrorCode Unit :=
  verifySettlement c2Book 401 (List.replicate 64 0) (List.replicate 128 0)
    (List.replicate 64 0) c2Signals 1000

/-- C2 (failing input for the code bug).  A book holding one order
(id 401, owner 9) that was never payment-marked: its status is `Pending` and
its settlement timestamp `0`, yet `verify_settlement` at time 1000 with a
well-shaped proof and matching order id returns `Ok` and sets the status to
`Verified`, where the claim requires failure with `SettlementDelayNotExpired`
and the status not set to `Verified`. -/
theorem c2_unmarked_order_gets_verified :
    ((findOrderLoc 401 c2Book.order_queues 0).map fun x =>
      (x.2.2.payment_status, x.2.2.settlement_timestamp)) = some (.pending, 0) ∧
    c2Res.2 = .ok () ∧
    ((findOrderLoc 401 c2Res.1.order_queues 0).map fun x =>
      x.2.2.payment_status) = some .verified := by
  decide

/-! ## C3: mark_payment_made is not idempotent -/

/-- C3 (counterexample).  `mark_payment_made` never inspects the current
`payment_status`: after a first successful call at time 100
(status `PaymentMarked`, timestamps 100/110), a second call by the same owner
at time 200 returns `Ok` — not an error — and moves
`payment_marked_timestamp`/`settlement_timestamp` to 200/210, refuting both
parts of the claim. -/
theorem c3_remark_counterexample :
    let b := ((OrderBook.new 1 2 2).insertOrder
      (Order.new 401 9 5 100 1000 .limit .ask 1 [])).1
    let b1 := (markPaymentMade b 401 9 100).1
    let res := markPaymentMade b1 401 9 200
    ((findOrderLoc 401 b1.order_queues 0).map fun x =>
      (x.2.2.payment_status, x.2.2.payment_marked_timestamp,
        x.2.2.settlement_timestamp)) = some (.paymentMarked, 100, 110) ∧
    res.2 = .ok () ∧
    ((findOrderLoc 401 res.1.order_queues 0).map fun x =>
      (x.2.2.payment_marked_timestamp, x.2.2.settlement_timestamp))
      = some (200, 210) := by
  decide

/-- C3 (amended).  Calling `mark_payment_made` again on an order whose
`payment_status` is already `PaymentMarked` (by its owner) succeeds and
overwrites: the status stays `PaymentMarked` while `payment_marked_timestamp`
becomes the new call time and `settlement_timestamp` the new call time plus
10 seconds. -/
theorem c3_remark_overwrites (b : OrderBook) (oid buyer qi j : Nat)
    (now : Int) (o : Order)
    (hloc : findOrderLoc oid b.order_queues 0 = some (qi, j, o))
    (hown : o.owner = buyer)
    (_hstat : o.payment_status = .paymentMarked) :
    markPaymentMade b oid buyer now =
      (b.setOrderAt qi j
        { o with payment_status := .paymentMarked,
                 payment_marked_timestamp := now,
                 settlement_timestamp := now + 10 }, .ok ()) := by
  unfold markPaymentMade
  rw [hloc]
  dsimp only
  rw [if_pos hown]

/-- Witness for the amended C3 at a concrete input: the book of the
counterexample after the first marking; the second call at time 200. -/
theorem c3_remark_overwrites_witness :
    markPaymentMade (markPaymentMade ((OrderBook.new 1 2 2).insertOrder
        (Order.new 401 9 5 100 1000 .limit .ask 1 [])).1 401 9 100).1 401 9 200 =
      ((markPaymentMade ((OrderBook.new 1 2 2).insertOrder
        (Order.new 401 9 5 100 1000 .limit .ask 1 [])).1 401 9 100).1.setOrderAt 0 0
        { Order.new 401 9 5 100 1000 .limit .ask 1 [] with
            payment_status := .paymentMarked,
            payment_marked_timestamp := 200,
            settlement_timestamp := 210 }, .ok ()) := by
  have h := c3_remark_overwrites (markPaymentMade ((OrderBook.new 1 2 2).insertOrder
      (Order.new 401 9 5 100 1000 .limit .ask 1 [])).1 401 9 100).1 401 9 0 0 200
    { Order.new 401 9 5 100 1000 .limit .ask 1 [] with
        payment_status := .paymentMarked,
        payment_marked_timestamp := 100,
        settlement_timestamp := 110 }
    (by decide) (by decide) (by decide)
  exact h

/-! ## C1: FOK rejection leaves the persisted book unchanged -/

/-- C1.  For every book state and `match_order` call with order type
`FillOrKill` that passes input validation and the pre-flight self-trade
check, if the fills produced by the book-level match total less than the
requested quantity, the instruction fails with `FillOrKillNotFilled` and the
persisted order book — trees, queues, `total_orders`, best-price caches — is
the pre-call one (the failing transaction's account writes are discarded). -/
theorem c1_fok_atomic_rejection (b : OrderBook) (side : Side)
    (qty limit taker : Nat) (b1 : OrderBook) (fills : List Fill)
    (hq : 0 < qty) (hp : 0 < limit)
    (hst : b.wouldSelfTrade side taker = false)
    (hm : b.matchOrder side qty limit taker = (b1, fills, none))
    (hlt : sumFillQty fills < qty) :
    stepMatchOrder b side qty limit .fillOrKill taker =
      (b, .error .fillOrKillNotFilled) := by
  unfold stepMatchOrder
  rw [if_neg (Nat.pos_iff_ne_zero.mp hq), if_neg (Nat.pos_iff_ne_zero.mp hp),
    if_neg (by simp [hst]), hm]
  dsimp only
  rw [if_pos hlt]

/-- Witness for C1: an empty book cannot fill a FOK bid of quantity 1, so the
instruction rejects it and the persisted book is unchanged. -/
theorem c1_fok_atomic_rejection_witness :
    stepMatchOrder (OrderBook.new 1 2 2) .bid 1 1 .fillOrKill 0 =
      (OrderBook.new 1 2 2, .error .fillOrKillNotFilled) :=
  c1_fok_atomic_rejection (OrderBook.new 1 2 2) .bid 1 1 0
    (OrderBook.new 1 2 2) [] (by decide) (by decide) (by decide)
    (by decide) (by decide)

/-! ## C5: self-trade prevention -/

/-- The post-loop normalisation of `match_order` (`total_orders`
recomputation plus `update_best_prices`) is the identity on a book whose
`total_orders` and caches are already consistent — as they are on every state
the program can reach. -/
theorem matchFinish_eq_self (b : OrderBook)
    (htot : b.total_orders = b.sumOrdersLen)
    (hbb : b.best_bid = (b.bids.maxKey.map Prod.fst).getD 0)
    (hba : b.best_ask = (b.asks.minKey.map Prod.fst).getD U64_MAX) :
    ({ b with total_orders := b.sumOrdersLen } : OrderBook).updateBestPrices = b := by
  unfold OrderBook.updateBestPrices OrderBook.sumOrdersLen at *
  cases b
  simp_all

/-- C5.  Self-trade prevention: on any consistent book state whose best
opposite-side price level has a head order owned by the taker, `match_order`
produces zero fills, no error, and leaves the book unchanged — the loop
aborts before recording any fill. -/
theorem c5_self_trade_prevention (b : OrderBook) (side : Side)
    (qty limit taker : Nat) (mo : Order)
    (hbest : b.getBestOrder side.opposite = some mo)
    (hown : mo.owner = taker)
    (htot : b.total_orders = b.sumOrdersLen)
    (hbb : b.best_bid = (b.bids.maxKey.map Prod.fst).getD 0)
    (hba : b.best_ask = (b.asks.minKey.map Prod.fst).getD U64_MAX) :
    b.matchOrder side qty limit taker = (b, [], none) := by
  have hfin := matchFinish_eq_self b htot hbb hba
  have hloop : ∀ f, OrderBook.matchLoop side limit taker
      (f + 1) b qty [] = (b, [], none) := by
    intro f
    simp only [OrderBook.matchLoop]
    cases side with
    | bid =>
      simp only [Side.opposite, OrderBook.getBestOrder] at hbest
      cases hmin : b.asks.minKey with
      | none => rw [hmin] at hbest; exact absurd hbest (by simp)
      | some pq =>
        rw [hmin] at hbest
        obtain ⟨p, qi⟩ := pq
        simp only [hmin]
        split
        · rfl
        · split
          · simp only [OrderQueue.peek] at hbest
            rw [hbest]
            dsimp only
            rw [if_pos hown]
          · rfl
    | ask =>
      simp only [Side.opposite, OrderBook.getBestOrder] at hbest
      cases hmax : b.bids.maxKey with
      | none => rw [hmax] at hbest; exact absurd hbest (by simp)
      | some pq =>
        rw [hmax] at hbest
        obtain ⟨p, qi⟩ := pq
        simp only [hmax]
        split
        · rfl
        · split
          · simp only [OrderQueue.peek] at hbest
            rw [hbest]
            dsimp only
            rw [if_pos hown]
          · rfl
  unfold OrderBook.matchOrder
  rw [hloop (qty + b.sumOrdersLen)]
  dsimp only
  rw [hfin]

/-- Witness for C5 at a concrete input: a book whose only ask is owned by the
taker of the bid. -/
theorem c5_self_trade_prevention_witness :
    (((OrderBook.new 1 2 2).insertOrder
        (Order.new 11 4 100 50 1000 .limit .ask 1 [])).1.matchOrder .bid 3 200 4) =
      (((OrderBook.new 1 2 2).insertOrder
        (Order.new 11 4 100 50 1000 .limit .ask 1 [])).1, [], none) :=
  c5_self_trade_prevention _ .bid 3 200 4
    (Order.new 11 4 100 50 1000 .limit .ask 1 [])
    (by decide) (by decide) (by decide) (by decide) (by decide)

/-! ## List helpers for the slab -/

theorem sum_map_set {α : Type} (f : α → Nat) (d : α) :
    ∀ (l : List α) (i : Nat) (a : α), i < l.length →
      ((l.set i a).map f).sum + f (l.getD i d) = (l.map f).sum + f a
  | [], i, _, h => absurd h (by simp)
  | x :: xs, 0, a, _ => by simp [List.getD_cons_zero]; omega
  | x :: xs, i + 1, a, h => by
    have ih := sum_map_set f d xs i a (by simpa using h)
    simp only [List.set_cons_succ, List.map_cons, List.sum_cons,
      List.getD_cons_succ]
    omega

theorem getD_set_self {α : Type} (d : α) :
    ∀ (l : List α) (i : Nat) (a : α), i < l.length → (l.set i a).getD i d = a
  | [], i, _, h => absurd h (by simp)
  | x :: xs, 0, a, _ => by simp [List.getD_cons_zero]
  | x :: xs, i + 1, a, h => by
    simpa using getD_set_self d xs i a (by simpa using h)

theorem getD_set_ne {α : Type} (d : α) :
    ∀ (l : List α) (i j : Nat) (a : α), i ≠ j → (l.set i a).getD j d = l.getD j d
  | [], _, _, _, _ => by simp
  | x :: xs, 0, 0, a, h => absurd rfl h
  | x :: xs, 0, j + 1, a, _ => by simp
  | x :: xs, i + 1, 0, a, _ => by simp
  | x :: xs, i + 1, j + 1, a, h => by
    simpa using getD_set_ne d xs i j a (by omega)

theorem getD_prop {α : Type} {P : α → Prop} {l : List α} {d : α}
    (hl : ∀ x ∈ l, P x) (hd : P d) (i : Nat) : P (l.getD i d) := by
  induction l generalizing i with
  | nil => simpa using hd
  | cons x xs ih =>
    cases i with
    | zero => exact hl x (by simp)
    | succ j =>
      simpa using ih (fun y hy => hl y (by simp [hy])) j

/-! ## Facts about `removeById` -/

theorem removeById_spec {oid : Nat} :
    ∀ {l : List Order} {o : Order} {rest : List Order},
      OrderQueue.removeById oid l = some (o, rest) →
      rest.length + 1 = l.length ∧
      o.quantity + (rest.map Order.quantity).sum = (l.map Order.quantity).sum ∧
      (∀ x ∈ rest, x ∈ l) ∧ o ∈ l := by
  intro l
  induction l with
  | nil => intro o rest h; simp [OrderQueue.removeById] at h
  | cons x xs ih =>
    intro o rest h
    simp only [OrderQueue.removeById] at h
    split at h
    · injection h with h1
      injection h1 with ho hrest
      subst ho; subst hrest
      refine ⟨by simp, by simp, fun y hy => by simp [hy], by simp⟩
    · cases hrec : OrderQueue.removeById oid xs with
      | none => rw [hrec] at h; simp at h
      | some p =>
        rw [hrec] at h
        obtain ⟨o2, rest2⟩ := p
        simp only [Option.map] at h
        injection h with h1
        injection h1 with ho hrest
        subst ho; subst hrest
        obtain ⟨hlen, hsum, hsub, hmem⟩ := ih hrec
        refine ⟨by simpa using hlen, by simp; omega, ?_, by simp [hmem]⟩
        intro y hy
        rcases List.mem_cons.mp hy with hy | hy
        · simp [hy]
        · simp [hsub y hy]

/-! ## Payload-index facts about the CritBit tree -/

theorem CritBitTree.find_mem {t : CritBitTree} {k v : Nat}
    (h : t.find k = some v) : (k, v) ∈ t.leavesList := by
  unfold find at h
  cases hr : t.root with
  | none => rw [hr] at h; exact absurd h (by simp)
  | some n =>
    rw [hr] at h
    simpa [leavesList, hr] using CBNode.findGo_mem h

theorem insertGo_leaves_sub (key oi cap : Nat) :
    ∀ (n : CBNode) (fl : Nat),
      ∀ p ∈ (insertGo key oi cap n fl).node.leaves, p ∈ n.leaves ∨ p.2 = oi := by
  intro n
  induction n with
  | leaf k o =>
    intro fl p hp
    simp only [insertGo] at hp
    split at hp
    · simp only [CBNode.leaves, List.mem_singleton] at hp
      subst hp; exact Or.inr rfl
    · split at hp
      · split at hp
        · split at hp <;>
            (simp only [CBNode.leaves, List.mem_append, List.mem_singleton] at hp;
             rcases hp with hp | hp <;> simp_all [CBNode.leaves])
        · simp only [CBNode.leaves] at hp; exact Or.inl hp
      · simp only [CBNode.leaves] at hp; exact Or.inl hp
  | inner pl l r ihl ihr =>
    intro fl p hp
    simp only [insertGo] at hp
    split at hp
    · simp only [CBNode.leaves, List.mem_append] at hp
      rcases hp with hp | hp
      · exact Or.inl (by simp [CBNode.leaves, hp])
      · rcases ihr fl p hp with h | h
        · exact Or.inl (by simp [CBNode.leaves, h])
        · exact Or.inr h
    · simp only [CBNode.leaves, List.mem_append] at hp
      rcases hp with hp | hp
      · rcases ihl fl p hp with h | h
        · exact Or.inl (by simp [CBNode.leaves, h])
        · exact Or.inr h
      · exact Or.inl (by simp [CBNode.leaves, hp])

theorem CritBitTree.insert_leaves_sub (t : CritBitTree) (k v : Nat) :
    ∀ p ∈ (t.insert k v).1.leavesList, p ∈ t.leavesList ∨ p.2 = v := by
  intro p hp
  unfold insert at hp
  cases hr : t.root with
  | none =>
    rw [hr] at hp
    dsimp only at hp
    split at hp
    · simp only [leavesList] at hp
      simp only [CBNode.leaves, List.mem_singleton] at hp
      subst hp; exact Or.inr rfl
    · simp only [leavesList, hr] at hp
      exact absurd hp (by simp)
  | some n =>
    rw [hr] at hp
    simp only [leavesList] at hp
    have := insertGo_leaves_sub k v t.capacity n t.freeList p hp
    simpa [leavesList, hr] using this

theorem removeGo_sublist {key : Nat} :
    ∀ {n m : CBNode} {oi : Nat},
      CritBitTree.removeGo key n = .ok (some m, oi) → m.leaves.Sublist n.leaves := by
  intro n
  induction n with
  | leaf k o =>
    intro m oi h
    simp only [CritBitTree.removeGo] at h
    split at h
    · injection h with h1; injection h1 with h2 _; exact absurd h2 (by simp)
    · exact absurd h (by simp)
  | inner pl l r ihl ihr =>
    intro m oi h
    simp only [CritBitTree.removeGo] at h
    split at h
    · cases hrec : CritBitTree.removeGo key r with
      | error e => rw [hrec] at h; exact absurd h (by simp)
      | ok p =>
        rw [hrec] at h
        obtain ⟨m', oi'⟩ := p
        cases m' with
        | none =>
          injection h with h1; injection h1 with h2 _
          injection h2 with h3; subst h3
          simp only [CBNode.leaves]
          exact List.sublist_append_left l.leaves r.leaves
        | some r' =>
          injection h with h1; injection h1 with h2 _
          injection h2 with h3; subst h3
          simp only [CBNode.leaves]
          exact (ihr hrec).append_left l.leaves
    · cases hrec : CritBitTree.removeGo key l with
      | error e => rw [hrec] at h; exact absurd h (by simp)
      | ok p =>
        rw [hrec] at h
        obtain ⟨m', oi'⟩ := p
        cases m' with
        | none =>
          injection h with h1; injection h1 with h2 _
          injection h2 with h3; subst h3
          simp only [CBNode.leaves]
          exact List.sublist_append_right l.leaves r.leaves
        | some l' =>
          injection h with h1; injection h1 with h2 _
          injection h2 with h3; subst h3
          simp only [CBNode.leaves]
          exact (ihl hrec).append_right r.leaves

theorem CritBitTree.remove_leaves_sub (t : CritBitTree) (k : Nat) :
    ∀ p ∈ (t.remove k).1.leavesList, p ∈ t.leavesList := by
  intro p hp
  unfold remove at hp
  cases hr : t.root with
  | none => rw [hr] at hp; exact hp
  | some n =>
    rw [hr] at hp
    dsimp only at hp
    cases hrec : removeGo k n with
    | error e => rw [hrec] at hp; exact hp
    | ok q =>
      rw [hrec] at hp
      obtain ⟨m', oi⟩ := q
      cases m' with
      | none => simp [leavesList] at hp
      | some m =>
        simp only [leavesList] at hp
        simp only [leavesList, hr]
        exact (removeGo_sublist hrec).mem hp

/-! ## C7 / C10: slab invariants under insert/remove sequences -/

/-- Consistency of the slab bookkeeping: the queue array keeps its
pre-allocated length, the bump index stays within capacity, every tree leaf
points below the bump index, `total_orders` equals the total number of queued
orders, and each queue's `total_quantity` equals the sum of its orders'
quantities. -/
def SlabInv (b : OrderBook) : Prop :=
  b.order_queues.length = OrderBook.MAX_PRICE_LEVELS ∧
  b.next_queue_index ≤ OrderBook.MAX_PRICE_LEVELS ∧
  (∀ p ∈ b.bids.leavesList, p.2 < b.next_queue_index) ∧
  (∀ p ∈ b.asks.leavesList, p.2 < b.next_queue_index) ∧
  b.total_orders = b.sumOrdersLen ∧
  (∀ q ∈ b.order_queues, q.total_quantity = q.sumQuantities)

theorem slabInv_updateBestPrices {x : OrderBook} (hx : SlabInv x) :
    SlabInv x.updateBestPrices := hx

theorem slabInv_new (market base_mint quote_mint : Nat) :
    SlabInv (OrderBook.new market base_mint quote_mint) := by
  refine ⟨by simp [OrderBook.new], by simp [OrderBook.new], ?_, ?_, ?_, ?_⟩
  · simp [OrderBook.new, CritBitTree.new, CritBitTree.leavesList]
  · simp [OrderBook.new, CritBitTree.new, CritBitTree.leavesList]
  · simp [OrderBook.new, OrderBook.sumOrdersLen, OrderQueue.new]
  · intro q hq
    simp only [OrderBook.new] at hq
    rw [List.eq_of_mem_replicate hq]
    simp [OrderQueue.new, OrderQueue.sumQuantities]

theorem queue_inv_push {q : OrderQueue} (hq : q.total_quantity = q.sumQuantities)
    (o : Order) : (q.push o).total_quantity = (q.push o).sumQuantities := by
  simp [OrderQueue.push, OrderQueue.sumQuantities] at *
  omega

theorem getQ_inv {b : OrderBook}
    (hb : ∀ q ∈ b.order_queues, q.total_quantity = q.sumQuantities) (qi : Nat) :
    (b.getQ qi).total_quantity = (b.getQ qi).sumQuantities :=
  getD_prop hb (by simp [OrderQueue.new, OrderQueue.sumQuantities]) qi

theorem queues_inv_set {b : OrderBook}
    (hb : ∀ q ∈ b.order_queues, q.total_quantity = q.sumQuantities)
    {q' : OrderQueue} (hq' : q'.total_quantity = q'.sumQuantities) (qi : Nat) :
    ∀ q ∈ b.order_queues.set qi q', q.total_quantity = q.sumQuantities := by
  intro q hq
  rcases List.mem_or_eq_of_mem_set hq with h | h
  · exact hb q h
  · rw [h]; exact hq'

/-- Inserting a queue entry at an in-range index raises the order count by
exactly the length difference. -/
theorem sumOrdersLen_set {b : OrderBook} {qi : Nat}
    (hqi : qi < b.order_queues.length) (q' : OrderQueue) :
    ((b.order_queues.set qi q').map fun q => q.orders.length).sum
        + (b.getQ qi).orders.length
      = b.sumOrdersLen + q'.orders.length :=
  sum_map_set (fun q => q.orders.length) OrderQueue.new _ qi q' hqi

theorem slabInv_insertOrder {b b' : OrderBook} {o : Order}
    (inv : SlabInv b) (h : b.insertOrder o = (b', none)) : SlabInv b' := by
  obtain ⟨hlen, hnqi, hbids, hasks, htot, hq⟩ := inv
  simp only [OrderBook.sumOrdersLen] at htot
  unfold OrderBook.insertOrder at h
  dsimp only at h
  cases hside : o.side <;> rw [hside] at h <;> dsimp only at h
  case bid =>
    split at h
    case h_1 qi heq =>
      injection h with h1 _; subst h1
      apply slabInv_updateBestPrices
      have hqi : qi < b.next_queue_index := hbids _ (CritBitTree.find_mem heq)
      have hqil : qi < b.order_queues.length := by omega
      have hsum := sumOrdersLen_set hqil ((b.getQ qi).push o)
      simp only [OrderBook.sumOrdersLen] at hsum
      have hpl : ((b.getQ qi).push o).orders.length
          = (b.getQ qi).orders.length + 1 := by simp [OrderQueue.push]
      refine ⟨by simpa [OrderBook.setQ] using hlen, hnqi, hbids, hasks, ?_, ?_⟩
      · show b.total_orders + 1
          = ((b.order_queues.set qi ((b.getQ qi).push o)).map
              fun q => q.orders.length).sum
        omega
      · exact queues_inv_set hq (queue_inv_push (getQ_inv hq qi) o) qi
    case h_2 heq =>
      split at h
      case isTrue hlt =>
        split at h
        case h_1 e heqi => exact absurd (congrArg Prod.snd h) (by simp)
        case h_2 heqi =>
          injection h with h1 _; subst h1
          apply slabInv_updateBestPrices
          have hqil : b.next_queue_index < b.order_queues.length := by omega
          have hsum := sumOrdersLen_set hqil ((b.getQ b.next_queue_index).push o)
          simp only [OrderBook.sumOrdersLen] at hsum
          have hpl : ((b.getQ b.next_queue_index).push o).orders.length
              = (b.getQ b.next_queue_index).orders.length + 1 := by
            simp [OrderQueue.push]
          refine ⟨by simpa [OrderBook.setQ] using hlen, ?_, ?_, ?_, ?_, ?_⟩
          · show b.next_queue_index + 1 ≤ OrderBook.MAX_PRICE_LEVELS
            omega
          · intro p hp
            show p.2 < b.next_queue_index + 1
            rcases CritBitTree.insert_leaves_sub _ _ _ p hp with hm | hm
            · have := hbids p hm; omega
            · omega
          · intro p hp
            show p.2 < b.next_queue_index + 1
            have := hasks p hp; omega
          · show b.total_orders + 1
              = ((b.order_queues.set b.next_queue_index
                  ((b.getQ b.next_queue_index).push o)).map
                  fun q => q.orders.length).sum
            omega
          · exact queues_inv_set hq
              (queue_inv_push (getQ_inv hq b.next_queue_index) o) b.next_queue_index
      case isFalse => exact absurd (congrArg Prod.snd h) (by simp)
  case ask =>
    split at h
    case h_1 qi heq =>
      injection h with h1 _; subst h1
      apply slabInv_updateBestPrices
      have hqi : qi < b.next_queue_index := hasks _ (CritBitTree.find_mem heq)
      have hqil : qi < b.order_queues.length := by omega
      have hsum := sumOrdersLen_set hqil ((b.getQ qi).push o)
      simp only [OrderBook.sumOrdersLen] at hsum
      have hpl : ((b.getQ qi).push o).orders.length
          = (b.getQ qi).orders.length + 1 := by simp [OrderQueue.push]
      refine ⟨by simpa [OrderBook.setQ] using hlen, hnqi, hbids, hasks, ?_, ?_⟩
      · show b.total_orders + 1
          = ((b.order_queues.set qi ((b.getQ qi).push o)).map
              fun q => q.orders.length).sum
        omega
      · exact queues_inv_set hq (queue_inv_push (getQ_inv hq qi) o) qi
    case h_2 heq =>
      split at h
      case isTrue hlt =>
        split at h
        case h_1 e heqi => exact absurd (congrArg Prod.snd h) (by simp)
        case h_2 heqi =>
          injection h with h1 _; subst h1
          apply slabInv_updateBestPrices
          have hqil : b.next_queue_index < b.order_queues.length := by omega
          have hsum := sumOrdersLen_set hqil ((b.getQ b.next_queue_index).push o)
          simp only [OrderBook.sumOrdersLen] at hsum
          have hpl : ((b.getQ b.next_queue_index).push o).orders.length
              = (b.getQ b.next_queue_index).orders.length + 1 := by
            simp [OrderQueue.push]
          refine ⟨by simpa [OrderBook.setQ] using hlen, ?_, ?_, ?_, ?_, ?_⟩
          · show b.next_queue_index + 1 ≤ OrderBook.MAX_PRICE_LEVELS
            omega
          · intro p hp
            show p.2 < b.next_queue_index + 1
            have := hbids p hp; omega
          · intro p hp
            show p.2 < b.next_queue_index + 1
            rcases CritBitTree.insert_leaves_sub _ _ _ p hp with hm | hm
            · have := hasks p hm; omega
            · omega
          · show b.total_orders + 1
              = ((b.order_queues.set b.next_queue_index
                  ((b.getQ b.next_queue_index).push o)).map
                  fun q => q.orders.length).sum
            omega
          · exact queues_inv_set hq
              (queue_inv_push (getQ_inv hq b.next_queue_index) o) b.next_queue_index
      case isFalse => exact absurd (congrArg Prod.snd h) (by simp)

theorem OrderQueue.remove_spec {q : OrderQueue} {oid : Nat} {o : Order}
    {q' : OrderQueue} (h : q.remove oid = (some o, q')) :
    q'.orders.length + 1 = q.orders.length ∧
    o.quantity + (q'.orders.map Order.quantity).sum
      = (q.orders.map Order.quantity).sum ∧
    q'.total_quantity = q.total_quantity - o.quantity ∧
    (∀ x ∈ q'.orders, x ∈ q.orders) ∧ o ∈ q.orders := by
  unfold OrderQueue.remove at h
  cases hrb : OrderQueue.removeById oid q.orders with
  | none => rw [hrb] at h; exact absurd (congrArg Prod.fst h) (by simp)
  | some p =>
    rw [hrb] at h
    obtain ⟨o1, rest⟩ := p
    injection h with h1 h2
    injection h1 with h1
    subst h1; subst h2
    obtain ⟨hlen, hsum, hsub, hmem⟩ := removeById_spec hrb
    exact ⟨hlen, hsum, rfl, hsub, hmem⟩

theorem slabInv_removeOrder {b b' : OrderBook} {oid : Nat} {side : Side}
    {price : Nat} {o : Order}
    (inv : SlabInv b) (h : b.removeOrder oid side price = (b', .ok o)) :
    SlabInv b' := by
  obtain ⟨hlen, hnqi, hbids, hasks, htot, hq⟩ := inv
  simp only [OrderBook.sumOrdersLen] at htot
  unfold OrderBook.removeOrder at h
  dsimp only at h
  cases side <;> dsimp only at h
  case bid =>
    split at h
    case h_1 heq => exact absurd (congrArg Prod.snd h) (by simp)
    case h_2 qi heq =>
      split at h
      case h_1 => exact absurd (congrArg Prod.snd h) (by simp)
      case h_2 o2 q' heq2 =>
        have hqi : qi < b.next_queue_index := hbids _ (CritBitTree.find_mem heq)
        have hqil : qi < b.order_queues.length := by omega
        obtain ⟨hql, hqs, hqt, hqsub, hqmem⟩ := OrderQueue.remove_spec heq2
        have hsum := sumOrdersLen_set hqil q'
        simp only [OrderBook.sumOrdersLen] at hsum
        have hqinv : q'.total_quantity = q'.sumQuantities := by
          have := getQ_inv hq qi
          simp only [OrderQueue.sumQuantities] at *
          omega
        split at h
        case isTrue hemp =>
          split at h
          case h_1 e heqt => exact absurd (congrArg Prod.snd h) (by simp)
          case h_2 a heqt =>
            injection h with h1 _; subst h1
            apply slabInv_updateBestPrices
            refine ⟨by simpa [OrderBook.setQ] using hlen, hnqi, ?_, ?_, ?_, ?_⟩
            · intro p hp
              exact hbids p (CritBitTree.remove_leaves_sub _ _ p hp)
            · exact hasks
            · show b.total_orders - 1
                = ((b.order_queues.set qi q').map fun q => q.orders.length).sum
              omega
            · exact queues_inv_set hq hqinv qi
        case isFalse hemp =>
          injection h with h1 _; subst h1
          apply slabInv_updateBestPrices
          refine ⟨by simpa [OrderBook.setQ] using hlen, hnqi, hbids, hasks, ?_, ?_⟩
          · show b.total_orders - 1
              = ((b.order_queues.set qi q').map fun q => q.orders.length).sum
            omega
          · exact queues_inv_set hq hqinv qi
  case ask =>
    split at h
    case h_1 heq => exact absurd (congrArg Prod.snd h) (by simp)
    case h_2 qi heq =>
      split at h
      case h_1 => exact absurd (congrArg Prod.snd h) (by simp)
      case h_2 o2 q' heq2 =>
        have hqi : qi < b.next_queue_index := hasks _ (CritBitTree.find_mem heq)
        have hqil : qi < b.order_queues.length := by omega
        obtain ⟨hql, hqs, hqt, hqsub, hqmem⟩ := OrderQueue.remove_spec heq2
        have hsum := sumOrdersLen_set hqil q'
        simp only [OrderBook.sumOrdersLen] at hsum
        have hqinv : q'.total_quantity = q'.sumQuantities := by
          have := getQ_inv hq qi
          simp only [OrderQueue.sumQuantities] at *
          omega
        split at h
        case isTrue hemp =>
          split at h
          case h_1 e heqt => exact absurd (congrArg Prod.snd h) (by simp)
          case h_2 a heqt =>
            injection h with h1 _; subst h1
            apply slabInv_updateBestPrices
            refine ⟨by simpa [OrderBook.setQ] using hlen, hnqi, ?_, ?_, ?_, ?_⟩
            · exact hbids
            · intro p hp
              exact hasks p (CritBitTree.remove_leaves_sub _ _ p hp)
            · show b.total_orders - 1
                = ((b.order_queues.set qi q').map fun q => q.orders.length).sum
              omega
            · exact queues_inv_set hq hqinv qi
        case isFalse hemp =>
          injection h with h1 _; subst h1
          apply slabInv_updateBestPrices
          refine ⟨by simpa [OrderBook.setQ] using hlen, hnqi, hbids, hasks, ?_, ?_⟩
          · show b.total_orders - 1
              = ((b.order_queues.set qi q').map fun q => q.orders.length).sum
            omega
          · exact queues_inv_set hq hqinv qi

/-- Book states reachable from a freshly initialized book by sequences of
successful `insert_order` and `remove_order` calls (the operation set of
claims C7 and C10). -/
inductive ReachIR : OrderBook → Prop where
  | init (market base_mint quote_mint : Nat) :
      ReachIR (OrderBook.new market base_mint quote_mint)
  | insert {b b' : OrderBook} {o : Order} (hb : ReachIR b)
      (h : b.insertOrder o = (b', none)) : ReachIR b'
  | remove {b b' : OrderBook} {oid : Nat} {side : Side} {price : Nat}
      {o : Order} (hb : ReachIR b)
      (h : b.removeOrder oid side price = (b', .ok o)) : ReachIR b'

theorem reachIR_slabInv {b : OrderBook} (h : ReachIR b) : SlabInv b := by
  induction h with
  | init m bm qm => exact slabInv_new m bm qm
  | insert _ hop ih => exact slabInv_insertOrder ih hop
  | remove _ hop ih => exact slabInv_removeOrder ih hop

/-- C7.  Order-count invariant: on every book reached from a freshly
initialized book by successful `insert_order` / `remove_order` calls,
`total_orders` equals the sum over the slab queues of the number of orders in
each queue. -/
theorem c7_total_orders_inv {b : OrderBook} (h : ReachIR b) :
    b.total_orders = b.sumOrdersLen :=
  (reachIR_slabInv h).2.2.2.2.1

/-- Witness for C7: a fresh book after one insert and, on a second branch,
after an insert followed by a remove. -/
theorem c7_total_orders_inv_witness :
    (((OrderBook.new 1 2 2).insertOrder
        (Order.new 11 7 100 50 1000 .limit .bid 1 [])).1.total_orders
      = ((OrderBook.new 1 2 2).insertOrder
        (Order.new 11 7 100 50 1000 .limit .bid 1 [])).1.sumOrdersLen) ∧
    ((((OrderBook.new 1 2 2).insertOrder
        (Order.new 11 7 100 50 1000 .limit .bid 1 [])).1.removeOrder
          11 .bid 50).1.total_orders
      = (((OrderBook.new 1 2 2).insertOrder
        (Order.new 11 7 100 50 1000 .limit .bid 1 [])).1.removeOrder
          11 .bid 50).1.sumOrdersLen) :=
  ⟨c7_total_orders_inv
     (@ReachIR.insert (OrderBook.new 1 2 2)
       ((OrderBook.new 1 2 2).insertOrder
         (Order.new 11 7 100 50 1000 .limit .bid 1 [])).1
       (Order.new 11 7 100 50 1000 .limit .bid 1 [])
       (ReachIR.init 1 2 2) (by decide)),
   c7_total_orders_inv
     (@ReachIR.remove
       ((OrderBook.new 1 2 2).insertOrder
         (Order.new 11 7 100 50 1000 .limit .bid 1 [])).1
       (((OrderBook.new 1 2 2).insertOrder
         (Order.new 11 7 100 50 1000 .limit .bid 1 [])).1.removeOrder 11 .bid 50).1
       11 .bid 50 (Order.new 11 7 100 50 1000 .limit .bid 1 [])
       (@ReachIR.insert (OrderBook.new 1 2 2)
         ((OrderBook.new 1 2 2).insertOrder
           (Order.new 11 7 100 50 1000 .limit .bid 1 [])).1
         (Order.new 11 7 100 50 1000 .limit .bid 1 [])
         (ReachIR.init 1 2 2) (by decide)) (by rfl))⟩

/-- C10.  Queue-total invariant: on every book reached from a freshly
initialized book by successful `insert_order` / `remove_order` calls (no
matching), each slab queue's cached `total_quantity` equals the sum of the
`quantity` fields of the orders in that queue — `push` adds the pushed
order's quantity and `remove` subtracts the removed order's remaining
quantity. -/
theorem c10_queue_total_quantity_inv {b : OrderBook} (h : ReachIR b) :
    ∀ q ∈ b.order_queues, q.total_quantity = q.sumQuantities :=
  (reachIR_slabInv h).2.2.2.2.2

/-- Witness for C10: the first slab queue of a concrete reachable book. -/
theorem c10_queue_total_quantity_inv_witness :
    (((OrderBook.new 1 2 2).insertOrder
        (Order.new 11 7 100 50 1000 .limit .bid 1 [])).1.getQ 0).total_quantity
      = (((OrderBook.new 1 2 2).insertOrder
        (Order.new 11 7 100 50 1000 .limit .bid 1 [])).1.getQ 0).sumQuantities :=
  c10_queue_total_quantity_inv
    (@ReachIR.insert (OrderBook.new 1 2 2)
      ((OrderBook.new 1 2 2).insertOrder
        (Order.new 11 7 100 50 1000 .limit .bid 1 [])).1
      (Order.new 11 7 100 50 1000 .limit .bid 1 [])
      (ReachIR.init 1 2 2) (by decide)) _ (by decide)

/-! ## C9: no zero-quantity order rests in the book -/

/-- Every order in a queue referenced by a bids or asks leaf has quantity at
least 1. -/
def PosInv (b : OrderBook) : Prop :=
  (∀ p ∈ b.bids.leavesList, ∀ o ∈ (b.getQ p.2).orders, 1 ≤ o.quantity) ∧
  (∀ p ∈ b.asks.leavesList, ∀ o ∈ (b.getQ p.2).orders, 1 ≤ o.quantity)

/-- Strengthened induction invariant for C9: positivity, tree payloads below
the bump index, and emptiness of every not-yet-allocated queue slot. -/
def Inv9 (b : OrderBook) : Prop :=
  PosInv b ∧
  (∀ p ∈ b.bids.leavesList, p.2 < b.next_queue_index) ∧
  (∀ p ∈ b.asks.leavesList, p.2 < b.next_queue_index) ∧
  (∀ i, b.next_queue_index ≤ i → (b.getQ i).orders = [])

theorem getQ_setQ_ne {b : OrderBook} {qi j : Nat} (h : qi ≠ j)
    (q : OrderQueue) : (b.setQ qi q).getQ j = b.getQ j :=
  getD_set_ne OrderQueue.new b.order_queues qi j q h

theorem getQ_setQ_self {b : OrderBook} {qi : Nat}
    (h : qi < b.order_queues.length) (q : OrderQueue) :
    (b.setQ qi q).getQ qi = q :=
  getD_set_self OrderQueue.new b.order_queues qi q h

theorem getQ_setQ_oob {b : OrderBook} {qi : Nat}
    (h : b.order_queues.length ≤ qi) (q : OrderQueue) :
    (b.setQ qi q).getQ qi = b.getQ qi := by
  unfold OrderBook.setQ OrderBook.getQ
  rw [List.set_eq_of_length_le h]

/-- Characterisation of a queue slot after a write: either the written value
(and the index was in range), or the untouched one. -/
theorem getQ_setQ_cases (b : OrderBook) (qi j : Nat) (q : OrderQueue) :
    (b.setQ qi q).getQ j = q ∨ (b.setQ qi q).getQ j = b.getQ j := by
  by_cases hj : qi = j
  · subst hj
    by_cases hl : qi < b.order_queues.length
    · exact Or.inl (getQ_setQ_self hl q)
    · exact Or.inr (getQ_setQ_oob (le_of_not_lt hl) q)
  · exact Or.inr (getQ_setQ_ne hj q)

theorem CritBitTree.minKey_mem {t : CritBitTree} {pq : Nat × Nat}
    (h : t.minKey = some pq) : pq ∈ t.leavesList := by
  unfold minKey at h
  cases hr : t.root with
  | none => rw [hr] at h; exact absurd h (by simp)
  | some n =>
    rw [hr] at h
    injection h with h1
    subst h1
    simpa [leavesList, hr] using n.minLeaf_mem

theorem CritBitTree.maxKey_mem {t : CritBitTree} {pq : Nat × Nat}
    (h : t.maxKey = some pq) : pq ∈ t.leavesList := by
  unfold maxKey at h
  cases hr : t.root with
  | none => rw [hr] at h; exact absurd h (by simp)
  | some n =>
    rw [hr] at h
    injection h with h1
    subst h1
    simpa [leavesList, hr] using n.maxLeaf_mem

/-- `Inv9` only depends on the trees, the queue slab and the bump index. -/
theorem inv9_eq_fields {x y : OrderBook}
    (hb : x.bids = y.bids) (ha : x.asks = y.asks)
    (hq : x.order_queues = y.order_queues)
    (hn : x.next_queue_index = y.next_queue_index) :
    Inv9 x → Inv9 y := by
  unfold Inv9 PosInv OrderBook.getQ
  rw [hb, ha, hq, hn]
  exact id

/-- `inv9_eq_fields` with the invariant first, so that elaboration fixes the
source book before checking the field equations. -/
theorem inv9_cast {x : OrderBook} (hx : Inv9 x) {y : OrderBook}
    (hb : x.bids = y.bids) (ha : x.asks = y.asks)
    (hq : x.order_queues = y.order_queues)
    (hn : x.next_queue_index = y.next_queue_index) : Inv9 y :=
  inv9_eq_fields hb ha hq hn hx

/-- Pushing a positive-quantity order onto an already-referenced queue
preserves `Inv9`. -/
theorem inv9_setQ_push (b : OrderBook) (o : Order) (qi : Nat)
    (inv : Inv9 b) (hqty : 1 ≤ o.quantity) (hqi : qi < b.next_queue_index)
    (hpos_qi : ∀ o2 ∈ (b.getQ qi).orders, 1 ≤ o2.quantity) :
    Inv9 (b.setQ qi ((b.getQ qi).push o)) := by
  obtain ⟨⟨hpb, hpa⟩, hrb, hra, hfresh⟩ := inv
  refine ⟨⟨?_, ?_⟩, hrb, hra, ?_⟩
  · intro p hp o2 ho2
    rcases getQ_setQ_cases b qi p.2 ((b.getQ qi).push o) with hc | hc
    · rw [hc] at ho2
      simp only [OrderQueue.push, List.mem_append, List.mem_singleton] at ho2
      rcases ho2 with ho2 | ho2
      · exact hpos_qi o2 ho2
      · subst ho2; exact hqty
    · rw [hc] at ho2
      exact hpb p hp o2 ho2
  · intro p hp o2 ho2
    rcases getQ_setQ_cases b qi p.2 ((b.getQ qi).push o) with hc | hc
    · rw [hc] at ho2
      simp only [OrderQueue.push, List.mem_append, List.mem_singleton] at ho2
      rcases ho2 with ho2 | ho2
      · exact hpos_qi o2 ho2
      · subst ho2; exact hqty
    · rw [hc] at ho2
      exact hpa p hp o2 ho2
  · show ∀ i, b.next_queue_index ≤ i →
      ((b.setQ qi ((b.getQ qi).push o)).getQ i).orders = []
    intro i hi
    rw [getQ_setQ_ne (by omega) _]
    exact hfresh i hi

/-- Allocating a fresh price level preserves `Inv9`, stated for a book whose
given side's tree became `t'` (all of whose leaves are old ones or point at
the freshly bumped slot), whose slab gained the pushed order at the fresh
slot, and whose bump index advanced. -/
theorem inv9_new_level (b : OrderBook) (o : Order) (t' : CritBitTree)
    (side : Side) (inv : Inv9 b) (hqty : 1 ≤ o.quantity)
    (hsub : ∀ p ∈ t'.leavesList,
      p ∈ (match side with | .bid => b.bids | .ask => b.asks).leavesList ∨
        p.2 = b.next_queue_index) :
    Inv9 { b with
      bids := match side with | .bid => t' | .ask => b.bids,
      asks := match side with | .bid => b.asks | .ask => t',
      order_queues :=
        b.order_queues.set b.next_queue_index
          ((b.getQ b.next_queue_index).push o),
      next_queue_index := b.next_queue_index + 1 } := by
  obtain ⟨⟨hpb, hpa⟩, hrb, hra, hfresh⟩ := inv
  have hslot : ∀ o2 ∈ ((b.order_queues.set b.next_queue_index
      ((b.getQ b.next_queue_index).push o)).getD b.next_queue_index
        OrderQueue.new).orders, 1 ≤ o2.quantity := by
    intro o2 ho2
    rcases getQ_setQ_cases b b.next_queue_index b.next_queue_index
        ((b.getQ b.next_queue_index).push o) with hc | hc
    · rw [show (b.setQ b.next_queue_index
          ((b.getQ b.next_queue_index).push o)).getQ b.next_queue_index
        = (b.order_queues.set b.next_queue_index
          ((b.getQ b.next_queue_index).push o)).getD b.next_queue_index
            OrderQueue.new from rfl] at hc
      rw [hc] at ho2
      simp only [OrderQueue.push, hfresh b.next_queue_index le_rfl,
        List.nil_append, List.mem_singleton] at ho2
      subst ho2; exact hqty
    · rw [show (b.setQ b.next_queue_index
          ((b.getQ b.next_queue_index).push o)).getQ b.next_queue_index
        = (b.order_queues.set b.next_queue_index
          ((b.getQ b.next_queue_index).push o)).getD b.next_queue_index
            OrderQueue.new from rfl] at hc
      rw [hc, hfresh b.next_queue_index le_rfl] at ho2
      exact absurd ho2 (by simp)
  have hold : ∀ j, j < b.next_queue_index →
      (b.order_queues.set b.next_queue_index
        ((b.getQ b.next_queue_index).push o)).getD j OrderQueue.new
      = b.getQ j := by
    intro j hj
    exact getD_set_ne _ _ _ _ _ (by omega)
  simp only [OrderBook.getQ] at hslot hold
  cases side
  case bid =>
    dsimp only at hsub
    refine ⟨⟨?_, ?_⟩, ?_, ?_, ?_⟩ <;> dsimp only
    · intro p hp o2 ho2
      simp only [OrderBook.getQ] at ho2
      rcases hsub p hp with hm | hm
      · rw [hold p.2 (hrb p hm)] at ho2
        exact hpb p hm o2 ho2
      · rw [hm] at ho2
        exact hslot o2 ho2
    · intro p hp o2 ho2
      simp only [OrderBook.getQ] at ho2
      rw [hold p.2 (hra p hp)] at ho2
      exact hpa p hp o2 ho2
    · intro p hp
      rcases hsub p hp with hm | hm
      · have := hrb p hm; omega
      · omega
    · intro p hp
      have := hra p hp; omega
    · intro i hi
      simp only [OrderBook.getQ]
      rw [getD_set_ne _ _ _ _ _ (by omega)]
      exact hfresh i (by omega)
  case ask =>
    dsimp only at hsub
    refine ⟨⟨?_, ?_⟩, ?_, ?_, ?_⟩ <;> dsimp only
    · intro p hp o2 ho2
      simp only [OrderBook.getQ] at ho2
      rw [hold p.2 (hrb p hp)] at ho2
      exact hpb p hp o2 ho2
    · intro p hp o2 ho2
      simp only [OrderBook.getQ] at ho2
      rcases hsub p hp with hm | hm
      · rw [hold p.2 (hra p hm)] at ho2
        exact hpa p hm o2 ho2
      · rw [hm] at ho2
        exact hslot o2 ho2
    · intro p hp
      have := hrb p hp; omega
    · intro p hp
      rcases hsub p hp with hm | hm
      · have := hra p hm; omega
      · omega
    · intro i hi
      simp only [OrderBook.getQ]
      rw [getD_set_ne _ _ _ _ _ (by omega)]
      exact hfresh i (by omega)

/-- `insert_order` preserves `Inv9` whatever its outcome, provided the
inserted order has positive quantity (failure paths leave either the book or
only an unreferenced slot changed). -/
theorem inv9_insertOrder {b : OrderBook} {o : Order}
    (inv : Inv9 b) (hqty : 1 ≤ o.quantity) : Inv9 (b.insertOrder o).1 := by
  unfold OrderBook.insertOrder
  dsimp only
  cases hside : o.side <;> dsimp only
  case bid =>
    split
    case h_1 qi heq =>
      have hmem := CritBitTree.find_mem heq
      exact inv9_setQ_push b o qi inv hqty (inv.2.1 _ hmem) (inv.1.1 _ hmem)
    case h_2 heq =>
      split
      case isTrue hlt =>
        split
        case h_1 e heqi =>
          exact inv9_eq_fields rfl rfl rfl rfl
            (inv9_new_level b o (b.bids.insert o.price b.next_queue_index).1
              .bid inv hqty
              (CritBitTree.insert_leaves_sub b.bids o.price b.next_queue_index))
        case h_2 heqi =>
          exact inv9_eq_fields rfl rfl rfl rfl
            (inv9_new_level b o (b.bids.insert o.price b.next_queue_index).1
              .bid inv hqty
              (CritBitTree.insert_leaves_sub b.bids o.price b.next_queue_index))
      case isFalse => exact inv
  case ask =>
    split
    case h_1 qi heq =>
      have hmem := CritBitTree.find_mem heq
      exact inv9_setQ_push b o qi inv hqty (inv.2.2.1 _ hmem) (inv.1.2 _ hmem)
    case h_2 heq =>
      split
      case isTrue hlt =>
        split
        case h_1 e heqi =>
          exact inv9_eq_fields rfl rfl rfl rfl
            (inv9_new_level b o (b.asks.insert o.price b.next_queue_index).1
              .ask inv hqty
              (CritBitTree.insert_leaves_sub b.asks o.price b.next_queue_index))
        case h_2 heqi =>
          exact inv9_eq_fields rfl rfl rfl rfl
            (inv9_new_level b o (b.asks.insert o.price b.next_queue_index).1
              .ask inv hqty
              (CritBitTree.insert_leaves_sub b.asks o.price b.next_queue_index))
      case isFalse => exact inv

/-- Replacing the trees by ones whose leaves are a subset of the old ones
preserves `Inv9`. -/
theorem inv9_tree_shrink (b : OrderBook) (tb ta : CritBitTree)
    (inv : Inv9 b)
    (hsubb : ∀ p ∈ tb.leavesList, p ∈ b.bids.leavesList)
    (hsuba : ∀ p ∈ ta.leavesList, p ∈ b.asks.leavesList) :
    Inv9 { b with bids := tb, asks := ta } := by
  obtain ⟨⟨hpb, hpa⟩, hrb, hra, hfresh⟩ := inv
  exact ⟨⟨fun p hp => hpb p (hsubb p hp), fun p hp => hpa p (hsuba p hp)⟩,
    fun p hp => hrb p (hsubb p hp), fun p hp => hra p (hsuba p hp), hfresh⟩

/-- Writing a queue whose orders are either old orders of an already
referenced slot or have positive quantity, together with shrinking the trees,
preserves `Inv9`. -/
theorem inv9_shrink (b : OrderBook) (qi : Nat) (q' : OrderQueue)
    (tb ta : CritBitTree) (inv : Inv9 b) (hqi : qi < b.next_queue_index)
    (hsubq : ∀ x ∈ q'.orders, x ∈ (b.getQ qi).orders ∨ 1 ≤ x.quantity)
    (hpos_qi : ∀ o2 ∈ (b.getQ qi).orders, 1 ≤ o2.quantity)
    (hsubb : ∀ p ∈ tb.leavesList, p ∈ b.bids.leavesList)
    (hsuba : ∀ p ∈ ta.leavesList, p ∈ b.asks.leavesList) :
    Inv9 { b with
      bids := tb, asks := ta,
      order_queues := b.order_queues.set qi q' } := by
  obtain ⟨⟨hpb, hpa⟩, hrb, hra, hfresh⟩ := inv
  have hq' : ∀ x ∈ q'.orders, 1 ≤ x.quantity := by
    intro x hx
    rcases hsubq x hx with h | h
    · exact hpos_qi x h
    · exact h
  refine ⟨⟨?_, ?_⟩, ?_, ?_, ?_⟩ <;> dsimp only
  · intro p hp o2 ho2
    simp only [OrderBook.getQ] at ho2
    rcases getQ_setQ_cases b qi p.2 q' with hc | hc
    · simp only [OrderBook.getQ, OrderBook.setQ] at hc
      rw [hc] at ho2
      exact hq' o2 ho2
    · simp only [OrderBook.getQ, OrderBook.setQ] at hc
      rw [hc] at ho2
      exact hpb p (hsubb p hp) o2 ho2
  · intro p hp o2 ho2
    simp only [OrderBook.getQ] at ho2
    rcases getQ_setQ_cases b qi p.2 q' with hc | hc
    · simp only [OrderBook.getQ, OrderBook.setQ] at hc
      rw [hc] at ho2
      exact hq' o2 ho2
    · simp only [OrderBook.getQ, OrderBook.setQ] at hc
      rw [hc] at ho2
      exact hpa p (hsuba p hp) o2 ho2
  · intro p hp
    exact hrb p (hsubb p hp)
  · intro p hp
    exact hra p (hsuba p hp)
  · intro i hi
    simp only [OrderBook.getQ]
    rw [getD_set_ne _ _ _ _ _ (by omega)]
    exact hfresh i (by omega)

/-- `remove_order` preserves `Inv9` whatever its outcome. -/
theorem inv9_removeOrder {b : OrderBook} {oid : Nat} {side : Side}
    {price : Nat} (inv : Inv9 b) :
    Inv9 (b.removeOrder oid side price).1 := by
  unfold OrderBook.removeOrder
  dsimp only
  cases side <;> dsimp only
  case bid =>
    split
    case h_1 heq => exact inv
    case h_2 qi heq =>
      have hmem := CritBitTree.find_mem heq
      have hqi := inv.2.1 _ hmem
      have hpos := inv.1.1 _ hmem
      split
      case h_1 => exact inv
      case h_2 o2 q' heq2 =>
        obtain ⟨_, _, _, hqsub, _⟩ := OrderQueue.remove_spec heq2
        split
        case isTrue hemp =>
          split
          case h_1 e heqt =>
            exact inv9_eq_fields rfl rfl rfl rfl
              (inv9_shrink b qi q' (b.bids.remove price).1 b.asks inv hqi
                (fun x hx => Or.inl (hqsub x hx)) hpos
                (CritBitTree.remove_leaves_sub b.bids price) (fun p hp => hp))
          case h_2 a heqt =>
            exact inv9_eq_fields rfl rfl rfl rfl
              (inv9_shrink b qi q' (b.bids.remove price).1 b.asks inv hqi
                (fun x hx => Or.inl (hqsub x hx)) hpos
                (CritBitTree.remove_leaves_sub b.bids price) (fun p hp => hp))
        case isFalse hemp =>
          exact inv9_eq_fields rfl rfl rfl rfl
            (inv9_shrink b qi q' b.bids b.asks inv hqi
              (fun x hx => Or.inl (hqsub x hx)) hpos
              (fun p hp => hp) (fun p hp => hp))
  case ask =>
    split
    case h_1 heq => exact inv
    case h_2 qi heq =>
      have hmem := CritBitTree.find_mem heq
      have hqi := inv.2.2.1 _ hmem
      have hpos := inv.1.2 _ hmem
      split
      case h_1 => exact inv
      case h_2 o2 q' heq2 =>
        obtain ⟨_, _, _, hqsub, _⟩ := OrderQueue.remove_spec heq2
        split
        case isTrue hemp =>
          split
          case h_1 e heqt =>
            exact inv9_eq_fields rfl rfl rfl rfl
              (inv9_shrink b qi q' b.bids (b.asks.remove price).1 inv hqi
                (fun x hx => Or.inl (hqsub x hx)) hpos
                (fun p hp => hp) (CritBitTree.remove_leaves_sub b.asks price))
          case h_2 a heqt =>
            exact inv9_eq_fields rfl rfl rfl rfl
              (inv9_shrink b qi q' b.bids (b.asks.remove price).1 inv hqi
                (fun x hx => Or.inl (hqsub x hx)) hpos
                (fun p hp => hp) (CritBitTree.remove_leaves_sub b.asks price))
        case isFalse hemp =>
          exact inv9_eq_fields rfl rfl rfl rfl
            (inv9_shrink b qi q' b.bids b.asks inv hqi
              (fun x hx => Or.inl (hqsub x hx)) hpos
              (fun p hp => hp) (fun p hp => hp))

/-- The crossing loop of `match_order` preserves `Inv9`: a fill either leaves
the maker with positive remaining quantity or pops it at once, and an emptied
level is removed from the tree. -/
theorem inv9_matchLoop (side : Side) (limit taker : Nat) :
    ∀ (fuel : Nat) (b : OrderBook) (remaining : Nat) (fills : List Fill),
      Inv9 b →
      Inv9 (OrderBook.matchLoop side limit taker fuel b remaining fills).1 := by
  intro fuel
  induction fuel with
  | zero => intro b r fills inv; exact inv
  | succ f ih =>
    intro b r fills inv
    simp only [OrderBook.matchLoop]
    split
    · exact inv
    · cases side with
      | bid =>
        cases hmin : b.asks.minKey with
        | none => simp only [hmin]; exact inv
        | some pq =>
          obtain ⟨price, qi⟩ := pq
          simp only [hmin]
          have hleaf := CritBitTree.minKey_mem hmin
          have hqi := inv.2.2.1 _ hleaf
          have hpos := inv.1.2 _ hleaf
          split
          · cases hhead : (b.getQ qi).orders.head? with
            | none => simp only [hhead]; exact inv
            | some maker =>
              simp only [hhead]
              split
              · exact inv
              · split
                case isTrue hfill =>
                  have hpop : (((⟨maker.fill (min r maker.quantity)
                        :: (b.getQ qi).orders.tail,
                      (b.getQ qi).total_quantity⟩ : OrderQueue)).popIfFilled).2.orders
                      = (b.getQ qi).orders.tail := by
                    simp [OrderQueue.popIfFilled, hfill]
                  have hb2 : Inv9 (b.setQ qi
                      ((⟨maker.fill (min r maker.quantity)
                          :: (b.getQ qi).orders.tail,
                        (b.getQ qi).total_quantity⟩ : OrderQueue)).popIfFilled.2) := by
                    apply inv9_shrink b qi _ b.bids b.asks inv hqi ?_ hpos
                      (fun p hp => hp) (fun p hp => hp)
                    intro x hx
                    rw [hpop] at hx
                    exact Or.inl ((b.getQ qi).orders.tail_sublist.mem hx)
                  split
                  case isTrue hemp =>
                    split
                    case h_1 e heqt =>
                      have hshr := inv9_shrink b qi
                        (OrderQueue.popIfFilled
                          ⟨maker.fill (min r maker.quantity)
                              :: (b.getQ qi).orders.tail,
                            (b.getQ qi).total_quantity⟩).2
                        b.bids (b.asks.remove price).1 inv hqi
                        (by intro x hx
                            rw [hpop] at hx
                            exact Or.inl ((b.getQ qi).orders.tail_sublist.mem hx))
                        hpos (fun p hp => hp)
                        (CritBitTree.remove_leaves_sub b.asks price)
                      exact inv9_cast hshr rfl rfl (by simp [OrderBook.setQ, List.set_set]) rfl
                    case h_2 a heqt =>
                      apply ih
                      have hshr := inv9_shrink b qi
                        (OrderQueue.popIfFilled
                          ⟨maker.fill (min r maker.quantity)
                              :: (b.getQ qi).orders.tail,
                            (b.getQ qi).total_quantity⟩).2
                        b.bids (b.asks.remove price).1 inv hqi
                        (by intro x hx
                            rw [hpop] at hx
                            exact Or.inl ((b.getQ qi).orders.tail_sublist.mem hx))
                        hpos (fun p hp => hp)
                        (CritBitTree.remove_leaves_sub b.asks price)
                      exact inv9_cast hshr rfl rfl (by simp [OrderBook.setQ, List.set_set]) rfl
                  case isFalse hemp =>
                    apply ih
                    exact inv9_cast hb2 rfl rfl (by simp [OrderBook.setQ, List.set_set]) rfl
                case isFalse hfill =>
                  apply ih
                  apply inv9_shrink b qi _ b.bids b.asks inv hqi ?_ hpos
                    (fun p hp => hp) (fun p hp => hp)
                  intro x hx
                  rcases List.mem_cons.mp hx with hx | hx
                  · subst hx
                    refine Or.inr ?_
                    simp only [Order.isFilled, Order.fill, decide_eq_true_eq,
                      decide_eq_false_iff_not] at hfill ⊢
                    omega
                  · exact Or.inl ((b.getQ qi).orders.tail_sublist.mem hx)
          · exact inv
      | ask =>
        cases hmax : b.bids.maxKey with
        | none => simp only [hmax]; exact inv
        | some pq =>
          obtain ⟨price, qi⟩ := pq
          simp only [hmax]
          have hleaf := CritBitTree.maxKey_mem hmax
          have hqi := inv.2.1 _ hleaf
          have hpos := inv.1.1 _ hleaf
          split
          · cases hhead : (b.getQ qi).orders.head? with
            | none => simp only [hhead]; exact inv
            | some maker =>
              simp only [hhead]
              split
              · exact inv
              · split
                case isTrue hfill =>
                  have hpop : (((⟨maker.fill (min r maker.quantity)
                        :: (b.getQ qi).orders.tail,
                      (b.getQ qi).total_quantity⟩ : OrderQueue)).popIfFilled).2.orders
                      = (b.getQ qi).orders.tail := by
                    simp [OrderQueue.popIfFilled, hfill]
                  have hb2 : Inv9 (b.setQ qi
                      ((⟨maker.fill (min r maker.quantity)
                          :: (b.getQ qi).orders.tail,
                        (b.getQ qi).total_quantity⟩ : OrderQueue)).popIfFilled.2) := by
                    apply inv9_shrink b qi _ b.bids b.asks inv hqi ?_ hpos
                      (fun p hp => hp) (fun p hp => hp)
                    intro x hx
                    rw [hpop] at hx
                    exact Or.inl ((b.getQ qi).orders.tail_sublist.mem hx)
                  split
                  case isTrue hemp =>
                    split
                    case h_1 e heqt =>
                      have hshr := inv9_shrink b qi
                        (OrderQueue.popIfFilled
                          ⟨maker.fill (min r maker.quantity)
                              :: (b.getQ qi).orders.tail,
                            (b.getQ qi).total_quantity⟩).2
                        (b.bids.remove price).1 b.asks inv hqi
                        (by intro x hx
                            rw [hpop] at hx
                            exact Or.inl ((b.getQ qi).orders.tail_sublist.mem hx))
                        hpos (CritBitTree.remove_leaves_sub b.bids price)
                        (fun p hp => hp)
                      exact inv9_cast hshr rfl rfl (by simp [OrderBook.setQ, List.set_set]) rfl
                    case h_2 a heqt =>
                      apply ih
                      have hshr := inv9_shrink b qi
                        (OrderQueue.popIfFilled
                          ⟨maker.fill (min r maker.quantity)
                              :: (b.getQ qi).orders.tail,
                            (b.getQ qi).total_quantity⟩).2
                        (b.bids.remove price).1 b.asks inv hqi
                        (by intro x hx
                            rw [hpop] at hx
                            exact Or.inl ((b.getQ qi).orders.tail_sublist.mem hx))
                        hpos (CritBitTree.remove_leaves_sub b.bids price)
                        (fun p hp => hp)
                      exact inv9_cast hshr rfl rfl (by simp [OrderBook.setQ, List.set_set]) rfl
                  case isFalse hemp =>
                    apply ih
                    exact inv9_cast hb2 rfl rfl (by simp [OrderBook.setQ, List.set_set]) rfl
                case isFalse hfill =>
                  apply ih
                  apply inv9_shrink b qi _ b.bids b.asks inv hqi ?_ hpos
                    (fun p hp => hp) (fun p hp => hp)
                  intro x hx
                  rcases List.mem_cons.mp hx with hx | hx
                  · subst hx
                    refine Or.inr ?_
                    simp only [Order.isFilled, Order.fill, decide_eq_true_eq,
                      decide_eq_false_iff_not] at hfill ⊢
                    omega
                  · exact Or.inl ((b.getQ qi).orders.tail_sublist.mem hx)
          · exact inv

/-- `match_order` preserves `Inv9` whatever its outcome (the post-loop
`total_orders` recomputation and cache refresh do not touch the fields the
invariant speaks about). -/
theorem inv9_matchOrder {b : OrderBook} (side : Side)
    (qty limit taker : Nat) (inv : Inv9 b) :
    Inv9 (b.matchOrder side qty limit taker).1 := by
  unfold OrderBook.matchOrder
  have h := inv9_matchLoop side limit taker (qty + b.sumOrdersLen + 1) b qty [] inv
  split
  case h_1 b1 fills e heq =>
    rw [heq] at h
    exact h
  case h_2 b1 fills heq =>
    rw [heq] at h
    exact inv9_cast h rfl rfl rfl rfl

theorem inv9_new (market base_mint quote_mint : Nat) :
    Inv9 (OrderBook.new market base_mint quote_mint) := by
  refine ⟨⟨?_, ?_⟩, ?_, ?_, ?_⟩
  · intro p hp
    simp [OrderBook.new, CritBitTree.new, CritBitTree.leavesList] at hp
  · intro p hp
    simp [OrderBook.new, CritBitTree.new, CritBitTree.leavesList] at hp
  · intro p hp
    simp [OrderBook.new, CritBitTree.new, CritBitTree.leavesList] at hp
  · intro p hp
    simp [OrderBook.new, CritBitTree.new, CritBitTree.leavesList] at hp
  · intro i _
    show ((OrderBook.new market base_mint quote_mint).getQ i).orders = []
    have : ∀ q ∈ (OrderBook.new market base_mint quote_mint).order_queues,
        q.orders = [] := by
      intro q hq
      simp only [OrderBook.new] at hq
      rw [List.eq_of_mem_replicate hq]
      rfl
    exact getD_prop this rfl i

/-- Book states reachable from a freshly initialized book by `insert_order`,
`remove_order` and `match_order` calls in which every inserted order has
quantity at least 1; the resulting in-memory state is taken whether the call
succeeds or fails. -/
inductive ReachQ : OrderBook → Prop where
  | init (market base_mint quote_mint : Nat) :
      ReachQ (OrderBook.new market base_mint quote_mint)
  | insert {b : OrderBook} (o : Order) (hb : ReachQ b)
      (hq : 1 ≤ o.quantity) : ReachQ (b.insertOrder o).1
  | remove {b : OrderBook} (oid : Nat) (side : Side) (price : Nat)
      (hb : ReachQ b) : ReachQ (b.removeOrder oid side price).1
  | mtch {b : OrderBook} (side : Side) (qty limit taker : Nat)
      (hb : ReachQ b) : ReachQ (b.matchOrder side qty limit taker).1

theorem reachQ_inv9 {b : OrderBook} (h : ReachQ b) : Inv9 b := by
  induction h with
  | init m bm qm => exact inv9_new m bm qm
  | insert o _ hq ih => exact inv9_insertOrder ih hq
  | remove oid side price _ ih => exact inv9_removeOrder ih
  | mtch side qty limit taker _ ih => exact inv9_matchOrder side qty limit taker ih

/-- C9.  If every order inserted via `insert_order` has quantity at least 1,
then after any sequence of `insert_order`, `remove_order` and `match_order`
calls, every order resting in a queue referenced by a bids or asks leaf has
quantity at least 1: `match_order` pops a maker the moment its quantity
reaches zero and removes the price level once its queue empties. -/
theorem c9_no_zero_quantity_resting {b : OrderBook} (h : ReachQ b) :
    (∀ p ∈ b.bids.leavesList, ∀ o ∈ (b.getQ p.2).orders, 1 ≤ o.quantity) ∧
    (∀ p ∈ b.asks.leavesList, ∀ o ∈ (b.getQ p.2).orders, 1 ≤ o.quantity) :=
  (reachQ_inv9 h).1

/-- Witness for C9: after inserting an ask of quantity 5 and matching a bid
of quantity 3 against it, the maker resting at price 100 (its quantity now 2)
still has positive quantity. -/
theorem c9_no_zero_quantity_resting_witness :
    1 ≤ ((Order.new 21 1 5 100 1000 .limit .ask 1 []).fill 3).quantity :=
  (c9_no_zero_quantity_resting
      (@ReachQ.mtch ((OrderBook.new 1 2 2).insertOrder
          (Order.new 21 1 5 100 1000 .limit .ask 1 [])).1
        .bid 3 100 9
        (@ReachQ.insert (OrderBook.new 1 2 2)
          (Order.new 21 1 5 100 1000 .limit .ask 1 [])
          (ReachQ.init 1 2 2) (by decide)))).2
    (100, 0) (by decide) _ (by decide)

/-! ## C8: CritBit map round-trip on reachable trees -/

theorem exists_bit : ∀ (n : Nat) {x : Nat}, x ≠ 0 → x < 2 ^ n →
    ∃ i, i < n ∧ (x >>> i) % 2 = 1 := by
  intro n
  induction n with
  | zero => intro x hx hlt; omega
  | succ m ih =>
    intro x hx hlt
    by_cases hpar : x % 2 = 1
    · exact ⟨0, by omega, by simpa using hpar⟩
    · have hx2 : x / 2 ≠ 0 := by omega
      have hlt2 : x / 2 < 2 ^ m := by
        have : 2 ^ (m + 1) = 2 ^ m * 2 := by ring
        omega
      obtain ⟨i, hi, hbit⟩ := ih hx2 hlt2
      refine ⟨i + 1, by omega, ?_⟩
      rw [show i + 1 = 1 + i by omega, Nat.shiftRight_add, Nat.shiftRight_one]
      exact hbit

theorem topBitBelow_spec (x : Nat) :
    ∀ n, (∃ i, i < n ∧ (x >>> i) % 2 = 1) →
      (x >>> topBitBelow x n) % 2 = 1 ∧ topBitBelow x n < n := by
  intro n
  induction n with
  | zero => intro ⟨i, hi, _⟩; omega
  | succ m ih =>
    intro ⟨i, hi, hbit⟩
    simp only [topBitBelow]
    split
    · exact ⟨by assumption, by omega⟩
    · have hm : i < m := by
        rcases Nat.lt_succ_iff_lt_or_eq.mp hi with h | h
        · exact h
        · subst h; exact absurd hbit (by assumption)
      obtain ⟨h1, h2⟩ := ih ⟨i, hm, hbit⟩
      exact ⟨h1, by omega⟩

theorem getBit_eq_testBit {k i : Nat} (h : i < 64) :
    getBit k i = k.testBit i := by
  simp [getBit, Nat.not_le.mpr h, Nat.shiftRight_eq_div_pow,
    Nat.testBit_to_div_mod]

/-- The critical bit of two distinct 64-bit keys distinguishes them: they
disagree at that bit position. -/
theorem critBit_differs {k1 k2 : Nat} (hne : k1 ≠ k2)
    (h1 : k1 < 2 ^ 64) (h2 : k2 < 2 ^ 64) :
    getBit k1 (findCriticalBit k1 k2) ≠ getBit k2 (findCriticalBit k1 k2) := by
  have hxor : k1 ^^^ k2 ≠ 0 := by
    intro h
    exact hne (Nat.xor_eq_zero.mp h)
  have hxlt : k1 ^^^ k2 < 2 ^ 64 := Nat.xor_lt_two_pow h1 h2
  obtain ⟨hbit, hlt⟩ :=
    topBitBelow_spec (k1 ^^^ k2) 64 (exists_bit 64 hxor hxlt)
  have hcb : findCriticalBit k1 k2 = topBitBelow (k1 ^^^ k2) 64 := by
    simp [findCriticalBit, hxor]
  rw [hcb, getBit_eq_testBit hlt, getBit_eq_testBit hlt]
  have htb : (k1 ^^^ k2).testBit (topBitBelow (k1 ^^^ k2) 64) = true := by
    rw [Nat.testBit_to_div_mod]
    rw [Nat.shiftRight_eq_div_pow] at hbit
    simpa using hbit
  rw [Nat.testBit_xor] at htb
  intro heq
  rw [heq] at htb
  simp at htb

/-- Well-formedness of a (sub)tree: distinct 64-bit leaf keys, and every
leaf is reached by the bit-descent of `find` on its own key.  All trees the
program builds satisfy it (`treeWF_applyOps`). -/
def NodeWF (n : CBNode) : Prop :=
  n.keys.Nodup ∧ (∀ k ∈ n.keys, k < 2 ^ 64) ∧
  ∀ p ∈ n.leaves, n.findGo p.1 = some p.2

theorem keys_mem_iff {n : CBNode} {k : Nat} :
    k ∈ n.keys ↔ ∃ v, (k, v) ∈ n.leaves := by
  unfold CBNode.keys
  constructor
  · intro h
    obtain ⟨p, hp, hk⟩ := List.mem_map.mp h
    exact ⟨p.2, by rwa [show (k, p.2) = p from by rw [← hk]]⟩
  · intro ⟨v, hv⟩
    exact List.mem_map.mpr ⟨(k, v), hv, rfl⟩

/-- Decomposition of well-formedness at an inner node: both subtrees are
well-formed and the node's bit cleanly routes every key: left keys carry a
`0` at `prefixLen`, right keys a `1`. -/
theorem NodeWF.inner_parts {pl : Nat} {l r : CBNode}
    (h : NodeWF (.inner pl l r)) :
    NodeWF l ∧ NodeWF r ∧
    (∀ k ∈ l.keys, getBit k pl = false) ∧
    (∀ k ∈ r.keys, getBit k pl = true) ∧
    l.keys.Disjoint r.keys := by
  obtain ⟨hnodup, hbound, hfind⟩ := h
  have hkeys : (CBNode.inner pl l r).keys = l.keys ++ r.keys := by
    simp [CBNode.keys, CBNode.leaves]
  rw [hkeys] at hnodup hbound
  obtain ⟨hnl, hnr, hdisj⟩ := List.nodup_append.mp hnodup
  have hbl : ∀ k ∈ l.keys, getBit k pl = false := by
    intro k hk
    obtain ⟨v, hv⟩ := keys_mem_iff.mp hk
    have hf := hfind (k, v) (by simp [CBNode.leaves, hv])
    simp only [CBNode.findGo] at hf
    by_contra hb
    rw [if_pos (by simpa using hb)] at hf
    exact hdisj hk (keys_mem_iff.mpr ⟨v, CBNode.findGo_mem hf⟩)
  have hbr : ∀ k ∈ r.keys, getBit k pl = true := by
    intro k hk
    obtain ⟨v, hv⟩ := keys_mem_iff.mp hk
    have hf := hfind (k, v) (by simp [CBNode.leaves, hv])
    simp only [CBNode.findGo] at hf
    by_contra hb
    rw [if_neg (by simpa using hb)] at hf
    exact hdisj (keys_mem_iff.mpr ⟨v, CBNode.findGo_mem hf⟩) hk
  refine ⟨⟨hnl, fun k hk => hbound k (by simp [hk]), ?_⟩,
    ⟨hnr, fun k hk => hbound k (by simp [hk]), ?_⟩, hbl, hbr, hdisj⟩
  · intro p hp
    have hf := hfind p (by simp [CBNode.leaves, hp])
    simp only [CBNode.findGo] at hf
    rwa [if_neg (by simp [hbl p.1 (keys_mem_iff.mpr ⟨p.2, hp⟩)])] at hf
  · intro p hp
    have hf := hfind p (by simp [CBNode.leaves, hp])
    simp only [CBNode.findGo] at hf
    rwa [if_pos (by simp [hbr p.1 (keys_mem_iff.mpr ⟨p.2, hp⟩)])] at hf

theorem keys_inner_left {pl : Nat} {l r : CBNode} {k : Nat}
    (h : k ∈ l.keys) : k ∈ (CBNode.inner pl l r).keys := by
  obtain ⟨v, hv⟩ := keys_mem_iff.mp h
  exact keys_mem_iff.mpr ⟨v, by simp [CBNode.leaves, hv]⟩

theorem keys_inner_right {pl : Nat} {l r : CBNode} {k : Nat}
    (h : k ∈ r.keys) : k ∈ (CBNode.inner pl l r).keys := by
  obtain ⟨v, hv⟩ := keys_mem_iff.mp h
  exact keys_mem_iff.mpr ⟨v, by simp [CBNode.leaves, hv]⟩

/-- A successful insertion descent preserves well-formedness, places the new
leaf where its own bit path finds it, and keeps every other leaf. -/
theorem insertGo_wf (key oi cap : Nat) (hkey : key < 2 ^ 64) :
    ∀ (n : CBNode) (fl : Nat), NodeWF n →
      (insertGo key oi cap n fl).err = none →
      NodeWF (insertGo key oi cap n fl).node ∧
      (key, oi) ∈ (insertGo key oi cap n fl).node.leaves ∧
      (∀ p ∈ n.leaves, p.1 ≠ key → p ∈ (insertGo key oi cap n fl).node.leaves) ∧
      (∀ k ∈ (insertGo key oi cap n fl).node.keys, k = key ∨ k ∈ n.keys) := by
  intro n
  induction n with
  | leaf k o =>
    intro fl hwf herr
    by_cases hk : k = key
    · subst hk
      simp only [insertGo, if_pos rfl]
      refine ⟨⟨by simp [CBNode.keys, CBNode.leaves], ?_, ?_⟩, ?_, ?_, ?_⟩
      · intro k2 hk2
        simp [CBNode.keys, CBNode.leaves] at hk2
        subst hk2; exact hkey
      · intro p hp
        simp only [CBNode.leaves, List.mem_singleton] at hp
        subst hp
        simp [CBNode.findGo]
      · simp [CBNode.leaves]
      · intro p hp hne
        simp only [CBNode.leaves, List.mem_singleton] at hp
        subst hp
        exact absurd rfl hne
      · intro k2 hk2
        simp [CBNode.keys, CBNode.leaves] at hk2
        exact Or.inl hk2
    · have hkb : k < 2 ^ 64 := hwf.2.1 k (by simp [CBNode.keys, CBNode.leaves])
      have hne : key ≠ k := fun h => hk h.symm
      have hdiff := critBit_differs hne hkey hkb
      by_cases hc1 : fl < cap
      · by_cases hc2 : fl + 1 < cap
        · have hred : insertGo key oi cap (.leaf k o) fl =
              if getBit key (findCriticalBit key k) then
                ⟨.inner (findCriticalBit key k) (.leaf k o) (.leaf key oi),
                  fl + 2, true, none⟩
              else
                ⟨.inner (findCriticalBit key k) (.leaf key oi) (.leaf k o),
                  fl + 2, true, none⟩ := by
            simp [insertGo, hk, hc1, hc2]
          by_cases hgb : getBit key (findCriticalBit key k)
          · rw [hred, if_pos hgb]
            have hkbit : getBit k (findCriticalBit key k) = false := by
              cases hgk : getBit k (findCriticalBit key k) with
              | false => rfl
              | true => rw [hgb, hgk] at hdiff; exact absurd rfl hdiff
            refine ⟨⟨by simp [CBNode.keys, CBNode.leaves, hk, hne], ?_, ?_⟩,
              ?_, ?_, ?_⟩
            · intro k2 hk2
              simp [CBNode.keys, CBNode.leaves] at hk2
              rcases hk2 with hk2 | hk2 <;> subst hk2
              · exact hkb
              · exact hkey
            · intro p hp
              simp only [CBNode.leaves, List.mem_append,
                List.mem_singleton] at hp
              rcases hp with hp | hp <;> subst hp <;>
                simp [CBNode.findGo, hgb, hkbit, hk]
            · simp [CBNode.leaves]
            · intro p hp hne2
              simp only [CBNode.leaves, List.mem_singleton] at hp
              subst hp
              simp [CBNode.leaves]
            · intro k2 hk2
              simp [CBNode.keys, CBNode.leaves] at hk2
              rcases hk2 with hk2 | hk2
              · exact Or.inr (by simp [CBNode.keys, CBNode.leaves, hk2])
              · exact Or.inl hk2
          · rw [hred, if_neg hgb]
            have hkbit : getBit k (findCriticalBit key k) = true := by
              cases hgk : getBit k (findCriticalBit key k) with
              | true => rfl
              | false =>
                rw [hgk] at hdiff
                rw [show getBit key (findCriticalBit key k) = false from by
                  simpa using hgb] at hdiff
                exact absurd rfl hdiff
            refine ⟨⟨by simp [CBNode.keys, CBNode.leaves, hk, hne], ?_, ?_⟩,
              ?_, ?_, ?_⟩
            · intro k2 hk2
              simp [CBNode.keys, CBNode.leaves] at hk2
              rcases hk2 with hk2 | hk2 <;> subst hk2
              · exact hkey
              · exact hkb
            · intro p hp
              simp only [CBNode.leaves, List.mem_append,
                List.mem_singleton] at hp
              rcases hp with hp | hp <;> subst hp <;>
                simp [CBNode.findGo, hgb, hkbit, hk]
            · simp [CBNode.leaves]
            · intro p hp hne2
              simp only [CBNode.leaves, List.mem_singleton] at hp
              subst hp
              simp [CBNode.leaves]
            · intro k2 hk2
              simp [CBNode.keys, CBNode.leaves] at hk2
              rcases hk2 with hk2 | hk2
              · exact Or.inl hk2
              · exact Or.inr (by simp [CBNode.keys, CBNode.leaves, hk2])
        · exact absurd herr (by simp [insertGo, hk, hc1, hc2])
      · exact absurd herr (by simp [insertGo, hk, hc1])
  | inner pl l r ihl ihr =>
    intro fl hwf herr
    obtain ⟨hwl, hwr, hbl, hbr, hdisj⟩ := hwf.inner_parts
    by_cases hb : getBit key pl
    · have hred : insertGo key oi cap (.inner pl l r) fl =
          ⟨.inner pl l (insertGo key oi cap r fl).node,
            (insertGo key oi cap r fl).freeList,
            (insertGo key oi cap r fl).added,
            (insertGo key oi cap r fl).err⟩ := by
        simp [insertGo, hb]
      rw [hred] at herr ⊢
      obtain ⟨ihwf, ihmem, ihpres, ihkeys⟩ := ihr fl hwr herr
      have hbr' : ∀ k ∈ (insertGo key oi cap r fl).node.keys,
          getBit k pl = true := by
        intro k2 hk2
        rcases ihkeys k2 hk2 with hk2 | hk2
        · subst hk2; exact hb
        · exact hbr k2 hk2
      refine ⟨⟨?_, ?_, ?_⟩, ?_, ?_, ?_⟩
      · show (CBNode.keys (.inner pl l (insertGo key oi cap r fl).node)).Nodup
        have : CBNode.keys (.inner pl l (insertGo key oi cap r fl).node)
            = l.keys ++ (insertGo key oi cap r fl).node.keys := by
          simp [CBNode.keys, CBNode.leaves]
        rw [this, List.nodup_append]
        refine ⟨hwl.1, ihwf.1, ?_⟩
        intro k2 hk2 hk2'
        have := hbl k2 hk2
        have := hbr' k2 hk2'
        simp_all
      · intro k2 hk2
        simp only [CBNode.keys, CBNode.leaves, List.map_append,
          List.mem_append] at hk2
        rcases hk2 with hk2 | hk2
        · exact hwl.2.1 k2 hk2
        · rcases ihkeys k2 hk2 with h | h
          · subst h; exact hkey
          · exact hwr.2.1 k2 h
      · intro p hp
        simp only [CBNode.leaves, List.mem_append] at hp
        rcases hp with hp | hp
        · have hfb : getBit p.1 pl = false :=
            hbl p.1 (keys_mem_iff.mpr ⟨p.2, hp⟩)
          simp only [CBNode.findGo, hfb]
          exact hwl.2.2 p hp
        · have hfb : getBit p.1 pl = true :=
            hbr' p.1 (keys_mem_iff.mpr ⟨p.2, hp⟩)
          simp only [CBNode.findGo, hfb]
          exact ihwf.2.2 p hp
      · simp only [CBNode.leaves, List.mem_append]
        exact Or.inr ihmem
      · intro p hp hne2
        simp only [CBNode.leaves, List.mem_append] at hp ⊢
        rcases hp with hp | hp
        · exact Or.inl hp
        · exact Or.inr (ihpres p hp hne2)
      · intro k2 hk2
        have hk2' : k2 ∈ l.keys ∨
            k2 ∈ (insertGo key oi cap r fl).node.keys := by
          simpa [CBNode.keys, CBNode.leaves] using hk2
        rcases hk2' with hk2' | hk2'
        · exact Or.inr (keys_inner_left hk2')
        · rcases ihkeys k2 hk2' with h | h
          · exact Or.inl h
          · exact Or.inr (keys_inner_right h)
    · have hred : insertGo key oi cap (.inner pl l r) fl =
          ⟨.inner pl (insertGo key oi cap l fl).node r,
            (insertGo key oi cap l fl).freeList,
            (insertGo key oi cap l fl).added,
            (insertGo key oi cap l fl).err⟩ := by
        simp [insertGo, hb]
      rw [hred] at herr ⊢
      obtain ⟨ihwf, ihmem, ihpres, ihkeys⟩ := ihl fl hwl herr
      have hbl' : ∀ k ∈ (insertGo key oi cap l fl).node.keys,
          getBit k pl = false := by
        intro k2 hk2
        rcases ihkeys k2 hk2 with hk2 | hk2
        · subst hk2; simpa using hb
        · exact hbl k2 hk2
      refine ⟨⟨?_, ?_, ?_⟩, ?_, ?_, ?_⟩
      · show (CBNode.keys (.inner pl (insertGo key oi cap l fl).node r)).Nodup
        have : CBNode.keys (.inner pl (insertGo key oi cap l fl).node r)
            = (insertGo key oi cap l fl).node.keys ++ r.keys := by
          simp [CBNode.keys, CBNode.leaves]
        rw [this, List.nodup_append]
        refine ⟨ihwf.1, hwr.1, ?_⟩
        intro k2 hk2 hk2'
        have := hbl' k2 hk2
        have := hbr k2 hk2'
        simp_all
      · intro k2 hk2
        simp only [CBNode.keys, CBNode.leaves, List.map_append,
          List.mem_append] at hk2
        rcases hk2 with hk2 | hk2
        · rcases ihkeys k2 hk2 with h | h
          · subst h; exact hkey
          · exact hwl.2.1 k2 h
        · exact hwr.2.1 k2 hk2
      · intro p hp
        simp only [CBNode.leaves, List.mem_append] at hp
        rcases hp with hp | hp
        · have hfb : getBit p.1 pl = false :=
            hbl' p.1 (keys_mem_iff.mpr ⟨p.2, hp⟩)
          simp only [CBNode.findGo, hfb]
          exact ihwf.2.2 p hp
        · have hfb : getBit p.1 pl = true :=
            hbr p.1 (keys_mem_iff.mpr ⟨p.2, hp⟩)
          simp only [CBNode.findGo, hfb]
          exact hwr.2.2 p hp
      · simp only [CBNode.leaves, List.mem_append]
        exact Or.inl ihmem
      · intro p hp hne2
        simp only [CBNode.leaves, List.mem_append] at hp ⊢
        rcases hp with hp | hp
        · exact Or.inl (ihpres p hp hne2)
        · exact Or.inr hp
      · intro k2 hk2
        have hk2' : k2 ∈ (insertGo key oi cap l fl).node.keys ∨
            k2 ∈ r.keys := by
          simpa [CBNode.keys, CBNode.leaves] using hk2
        rcases hk2' with hk2' | hk2'
        · rcases ihkeys k2 hk2' with h | h
          · exact Or.inl h
          · exact Or.inr (keys_inner_left h)
        · exact Or.inr (keys_inner_right hk2')

/-- A failed insertion descent leaves the subtree unchanged (only the
allocator may have advanced). -/
theorem insertGo_err (key oi cap : Nat) :
    ∀ (n : CBNode) (fl : Nat) (e : ErrorCode),
      (insertGo key oi cap n fl).err = some e →
      (insertGo key oi cap n fl).node = n := by
  intro n
  induction n with
  | leaf k o =>
    intro fl e herr
    simp only [insertGo] at herr ⊢
    split at herr
    · exact absurd herr (by simp)
    · split at herr
      · split at herr
        · split at herr <;> exact absurd herr (by simp)
        · split <;> simp_all
      · split <;> simp_all
  | inner pl l r ihl ihr =>
    intro fl e herr
    by_cases hb : getBit key pl
    · have hred : insertGo key oi cap (.inner pl l r) fl =
          ⟨.inner pl l (insertGo key oi cap r fl).node,
            (insertGo key oi cap r fl).freeList,
            (insertGo key oi cap r fl).added,
            (insertGo key oi cap r fl).err⟩ := by
        simp [insertGo, hb]
      rw [hred] at herr ⊢
      dsimp only at herr ⊢
      rw [ihr fl e herr]
    · have hred : insertGo key oi cap (.inner pl l r) fl =
          ⟨.inner pl (insertGo key oi cap l fl).node r,
            (insertGo key oi cap l fl).freeList,
            (insertGo key oi cap l fl).added,
            (insertGo key oi cap l fl).err⟩ := by
        simp [insertGo, hb]
      rw [hred] at herr ⊢
      dsimp only at herr ⊢
      rw [ihl fl e herr]

/-- A successful removal descent that leaves a subtree behind preserves
well-formedness. -/
theorem removeGo_wf {key : Nat} :
    ∀ {n m : CBNode} {oi : Nat}, NodeWF n →
      CritBitTree.removeGo key n = .ok (some m, oi) → NodeWF m := by
  intro n
  induction n with
  | leaf k o =>
    intro m oi _ h
    simp only [CritBitTree.removeGo] at h
    split at h
    · injection h with h1; injection h1 with h2 _; exact absurd h2 (by simp)
    · exact absurd h (by simp)
  | inner pl l r ihl ihr =>
    intro m oi hwf h
    obtain ⟨hwl, hwr, hbl, hbr, hdisj⟩ := hwf.inner_parts
    simp only [CritBitTree.removeGo] at h
    split at h
    · cases hrec : CritBitTree.removeGo key r with
      | error e => rw [hrec] at h; exact absurd h (by simp)
      | ok p =>
        rw [hrec] at h
        obtain ⟨m', oi'⟩ := p
        cases m' with
        | none =>
          injection h with h1; injection h1 with h2 _
          injection h2 with h3; subst h3
          exact hwl
        | some r2 =>
          injection h with h1; injection h1 with h2 _
          injection h2 with h3; subst h3
          have hwr2 := ihr hwr hrec
          have hsubl := removeGo_sublist hrec
          have hbr2 : ∀ k2 ∈ r2.keys, getBit k2 pl = true := by
            intro k2 hk2
            obtain ⟨v, hv⟩ := keys_mem_iff.mp hk2
            exact hbr k2 (keys_mem_iff.mpr ⟨v, hsubl.mem hv⟩)
          refine ⟨?_, ?_, ?_⟩
          · have : CBNode.keys (.inner pl l r2) = l.keys ++ r2.keys := by
              simp [CBNode.keys, CBNode.leaves]
            rw [this, List.nodup_append]
            refine ⟨hwl.1, hwr2.1, ?_⟩
            intro k2 hk2 hk2'
            obtain ⟨v, hv⟩ := keys_mem_iff.mp hk2'
            exact hdisj hk2 (keys_mem_iff.mpr ⟨v, hsubl.mem hv⟩)
          · intro k2 hk2
            have hk2' : k2 ∈ l.keys ∨ k2 ∈ r2.keys := by
              simpa [CBNode.keys, CBNode.leaves] using hk2
            rcases hk2' with h2 | h2
            · exact hwl.2.1 k2 h2
            · exact hwr2.2.1 k2 h2
          · intro p hp
            simp only [CBNode.leaves, List.mem_append] at hp
            rcases hp with hp | hp
            · have hfb : getBit p.1 pl = false :=
                hbl p.1 (keys_mem_iff.mpr ⟨p.2, hp⟩)
              simp only [CBNode.findGo, hfb]
              exact hwl.2.2 p hp
            · have hfb : getBit p.1 pl = true :=
                hbr2 p.1 (keys_mem_iff.mpr ⟨p.2, hp⟩)
              simp only [CBNode.findGo, hfb]
              exact hwr2.2.2 p hp
    · cases hrec : CritBitTree.removeGo key l with
      | error e => rw [hrec] at h; exact absurd h (by simp)
      | ok p =>
        rw [hrec] at h
        obtain ⟨m', oi'⟩ := p
        cases m' with
        | none =>
          injection h with h1; injection h1 with h2 _
          injection h2 with h3; subst h3
          exact hwr
        | some l2 =>
          injection h with h1; injection h1 with h2 _
          injection h2 with h3; subst h3
          have hwl2 := ihl hwl hrec
          have hsubl := removeGo_sublist hrec
          have hbl2 : ∀ k2 ∈ l2.keys, getBit k2 pl = false := by
            intro k2 hk2
            obtain ⟨v, hv⟩ := keys_mem_iff.mp hk2
            exact hbl k2 (keys_mem_iff.mpr ⟨v, hsubl.mem hv⟩)
          refine ⟨?_, ?_, ?_⟩
          · have : CBNode.keys (.inner pl l2 r) = l2.keys ++ r.keys := by
              simp [CBNode.keys, CBNode.leaves]
            rw [this, List.nodup_append]
            refine ⟨hwl2.1, hwr.1, ?_⟩
            intro k2 hk2 hk2'
            obtain ⟨v, hv⟩ := keys_mem_iff.mp hk2
            exact hdisj (keys_mem_iff.mpr ⟨v, hsubl.mem hv⟩) hk2'
          · intro k2 hk2
            have hk2' : k2 ∈ l2.keys ∨ k2 ∈ r.keys := by
              simpa [CBNode.keys, CBNode.leaves] using hk2
            rcases hk2' with h2 | h2
            · exact hwl2.2.1 k2 h2
            · exact hwr.2.1 k2 h2
          · intro p hp
            simp only [CBNode.leaves, List.mem_append] at hp
            rcases hp with hp | hp
            · have hfb : getBit p.1 pl = false :=
                hbl2 p.1 (keys_mem_iff.mpr ⟨p.2, hp⟩)
              simp only [CBNode.findGo, hfb]
              exact hwl2.2.2 p hp
            · have hfb : getBit p.1 pl = true :=
                hbr p.1 (keys_mem_iff.mpr ⟨p.2, hp⟩)
              simp only [CBNode.findGo, hfb]
              exact hwr.2.2 p hp

/-- Well-formedness of a whole `CritBitTree`. -/
def TreeWF (t : CritBitTree) : Prop := ∀ n, t.root = some n → NodeWF n

theorem nodeWF_leaf {k v : Nat} (hk : k < 2 ^ 64) : NodeWF (.leaf k v) := by
  refine ⟨by simp [CBNode.keys, CBNode.leaves], ?_, ?_⟩
  · intro k2 hk2
    simp [CBNode.keys, CBNode.leaves] at hk2
    subst hk2; exact hk
  · intro p hp
    simp only [CBNode.leaves, List.mem_singleton] at hp
    subst hp
    simp [CBNode.findGo]

theorem treeWF_new (cap : Nat) : TreeWF (CritBitTree.new cap) := by
  intro n hn
  exact absurd hn (by simp [CritBitTree.new])

theorem treeWF_insert {t : CritBitTree} {key oi : Nat}
    (hk : key < 2 ^ 64) (h : TreeWF t) : TreeWF (t.insert key oi).1 := by
  cases hr : t.root with
  | none =>
    by_cases hc : t.freeList < t.capacity
    · have hroot : (t.insert key oi).1.root = some (.leaf key oi) := by
        simp [CritBitTree.insert, hr, hc]
      intro n hn
      rw [hroot] at hn
      injection hn with hn
      subst hn
      exact nodeWF_leaf hk
    · have hroot : (t.insert key oi).1.root = t.root := by
        simp [CritBitTree.insert, hr, hc]
      intro n hn
      rw [hroot] at hn
      exact h n hn
  | some n0 =>
    have hroot : (t.insert key oi).1.root =
        some (insertGo key oi t.capacity n0 t.freeList).node := by
      simp [CritBitTree.insert, hr]
    intro n hn
    rw [hroot] at hn
    injection hn with hn
    subst hn
    cases herr : (insertGo key oi t.capacity n0 t.freeList).err with
    | none =>
      exact (insertGo_wf key oi t.capacity hk n0 t.freeList (h n0 hr) herr).1
    | some e =>
      rw [insertGo_err key oi t.capacity n0 t.freeList e herr]
      exact h n0 hr

theorem treeWF_remove {t : CritBitTree} {key : Nat}
    (h : TreeWF t) : TreeWF (t.remove key).1 := by
  cases hr : t.root with
  | none =>
    have hroot : (t.remove key).1.root = t.root := by
      simp [CritBitTree.remove, hr]
    intro n hn
    rw [hroot] at hn
    exact h n hn
  | some n0 =>
    cases hrec : CritBitTree.removeGo key n0 with
    | error e =>
      have hroot : (t.remove key).1.root = t.root := by
        simp [CritBitTree.remove, hr, hrec]
      intro n hn
      rw [hroot] at hn
      exact h n hn
    | ok p =>
      obtain ⟨m', oi⟩ := p
      have hroot : (t.remove key).1.root = m' := by
        simp [CritBitTree.remove, hr, hrec]
      intro n hn
      rw [hroot] at hn
      cases m' with
      | none => exact absurd hn (by simp)
      | some m =>
        injection hn with hn
        subst hn
        exact removeGo_wf (h n0 hr) hrec

/-- Tree operations: the public mutators of `CritBitTree`. -/
inductive TreeOp where
  | ins (key oi : Nat) : TreeOp
  | del (key : Nat) : TreeOp
  deriving Repr, DecidableEq

/-- Apply one operation, keeping the resulting tree whether or not the
operation reported an error (a failed insert only consumes allocator slots, a
failed remove changes nothing). -/
def CritBitTree.applyOp (t : CritBitTree) : TreeOp → CritBitTree
  | .ins key oi => (t.insert key oi).1
  | .del key => (t.remove key).1

def CritBitTree.applyOps (t : CritBitTree) (ops : List TreeOp) : CritBitTree :=
  ops.foldl CritBitTree.applyOp t

/-- Inserted keys are `u64` values. -/
def TreeOp.keyBound : TreeOp → Prop
  | .ins key _ => key < 2 ^ 64
  | .del _ => True

theorem treeWF_applyOps {t : CritBitTree} (h : TreeWF t) :
    ∀ (ops : List TreeOp), (∀ op ∈ ops, op.keyBound) →
      TreeWF (t.applyOps ops) := by
  intro ops
  induction ops generalizing t with
  | nil => intro _; exact h
  | cons op rest ih =>
    intro hb
    show TreeWF ((t.applyOp op).applyOps rest)
    refine ih ?_ (fun op2 h2 => hb op2 (by simp [h2]))
    cases op with
    | ins key oi => exact treeWF_insert (hb (.ins key oi) (by simp)) h
    | del key => exact treeWF_remove h

/-- C8.  On every tree reachable from `CritBitTree::new` by a sequence of
inserts (of `u64` keys) and removes — successful or not — a successful
`insert(k, v)` is immediately observable: `find(k)` returns `Some v`, and
every other key present keeps its payload under `find`. -/
theorem c8_insert_find_roundtrip (cap : Nat) (ops : List TreeOp)
    (hops : ∀ op ∈ ops, op.keyBound) (k v : Nat) (hk : k < 2 ^ 64)
    (t' : CritBitTree)
    (hins : ((CritBitTree.new cap).applyOps ops).insert k v = (t', none)) :
    t'.find k = some v ∧
    ∀ k' v', k' ≠ k →
      ((CritBitTree.new cap).applyOps ops).find k' = some v' →
      t'.find k' = some v' := by
  have hwf : TreeWF ((CritBitTree.new cap).applyOps ops) :=
    treeWF_applyOps (treeWF_new cap) ops hops
  have hr' : (((CritBitTree.new cap).applyOps ops).insert k v).1.root
      = t'.root := congrArg (fun p => p.1.root) hins
  have he' : (((CritBitTree.new cap).applyOps ops).insert k v).2
      = none := congrArg Prod.snd hins
  cases hr : ((CritBitTree.new cap).applyOps ops).root with
  | none =>
    by_cases hc : ((CritBitTree.new cap).applyOps ops).freeList
        < ((CritBitTree.new cap).applyOps ops).capacity
    · have hroot : (((CritBitTree.new cap).applyOps ops).insert k v).1.root
          = some (.leaf k v) := by
        simp [CritBitTree.insert, hr, hc]
      have htroot : t'.root = some (.leaf k v) := by
        rw [← hr', hroot]
      constructor
      · unfold CritBitTree.find
        rw [htroot]
        simp [CBNode.findGo]
      · intro k' v' hne hfind
        unfold CritBitTree.find at hfind
        rw [hr] at hfind
        exact absurd hfind (by simp)
    · have hsnd : (((CritBitTree.new cap).applyOps ops).insert k v).2
          = some .orderBookFull := by
        simp [CritBitTree.insert, hr, hc]
      rw [hsnd] at he'
      exact absurd he' (by simp)
  | some n0 =>
    have hsnd : (((CritBitTree.new cap).applyOps ops).insert k v).2
        = (insertGo k v ((CritBitTree.new cap).applyOps ops).capacity n0
            ((CritBitTree.new cap).applyOps ops).freeList).err := by
      simp [CritBitTree.insert, hr]
    rw [hsnd] at he'
    obtain ⟨hwf', hmem, hpres, _⟩ :=
      insertGo_wf k v ((CritBitTree.new cap).applyOps ops).capacity hk n0
        ((CritBitTree.new cap).applyOps ops).freeList (hwf n0 hr) he'
    have hroot : (((CritBitTree.new cap).applyOps ops).insert k v).1.root
        = some (insertGo k v ((CritBitTree.new cap).applyOps ops).capacity n0
            ((CritBitTree.new cap).applyOps ops).freeList).node := by
      simp [CritBitTree.insert, hr]
    have htroot : t'.root = some (insertGo k v
        ((CritBitTree.new cap).applyOps ops).capacity n0
        ((CritBitTree.new cap).applyOps ops).freeList).node := by
      rw [← hr', hroot]
    constructor
    · unfold CritBitTree.find
      rw [htroot]
      exact hwf'.2.2 (k, v) hmem
    · intro k' v' hne hfind
      unfold CritBitTree.find at hfind ⊢
      rw [hr] at hfind
      rw [htroot]
      have hmem' := CBNode.findGo_mem hfind
      exact hwf'.2.2 (k', v') (hpres (k', v') hmem' hne)

/-- Witness for C8: two inserts then a fresh insert of key 150; the new key
and both old keys are found with their payloads. -/
theorem c8_insert_find_roundtrip_witness :
    ((((CritBitTree.new 10).applyOps
        [TreeOp.ins 100 0, TreeOp.ins 200 1]).insert 150 2).1.find 150 = some 2) ∧
    ((((CritBitTree.new 10).applyOps
        [TreeOp.ins 100 0, TreeOp.ins 200 1]).insert 150 2).1.find 100 = some 0) ∧
    ((((CritBitTree.new 10).applyOps
        [TreeOp.ins 100 0, TreeOp.ins 200 1]).insert 150 2).1.find 200 = some 1) :=
  have h := c8_insert_find_roundtrip 10 [TreeOp.ins 100 0, TreeOp.ins 200 1]
    (by intro op hop
        simp only [List.mem_cons, List.mem_singleton] at hop
        rcases hop with h | h | h <;> first
          | (subst h; simp [TreeOp.keyBound])
          | simp at h)
    150 2 (by norm_num)
    (((CritBitTree.new 10).applyOps
      [TreeOp.ins 100 0, TreeOp.ins 200 1]).insert 150 2).1
    (by decide)
  ⟨h.1, h.2 100 0 (by decide) (by decide), h.2 200 1 (by decide) (by decide)⟩

end Market
